import Mathlib

/-!
Verification of the concurrent dependency-graph task executor of
src/llm_compiler_agent.py (classes Task and DAGExecutor).

The embedding is a shallow one:

* A Python Task object becomes the structure Task; its status field (the
  string tags "pending", "running", "completed", "failed" enumerated at
  line 102 of the source) becomes the inductive Status.
* The dict self.tasks (insertion-ordered, keyed by task_id) becomes a
  List Task with lookup by task_id; dict assignment is insertTask, which
  keeps insertion position on an overwrite, exactly like a Python dict.
* The dict self.results becomes Store, an association list with the same
  dict semantics (insertStore, lookupStore).
* A tool dictionary becomes Tools, a partial map from tool name to a
  handler; a handler returns Except String String, where the error case
  stands for a raised Python exception whose message is the payload.
* re.findall applied to the pattern of line 147 becomes findRefs, a
  left-to-right scanner for a dollar sign followed by a maximal nonempty
  run of word characters (the ASCII fragment of the regex class \w), and
  str.replace becomes replaceAll, left-to-right non-overlapping
  replacement of every occurrence.  Both are written with an explicit
  fuel argument equal to the input length so that they are structurally
  recursive and reduce definitionally on concrete inputs.
* The scheduler loop execute_dag, the thread pool and the worker calls of
  execute_task become a small-step relation Step on ExecState.  One step
  is one lock-protected critical section or one loop decision of the
  source: submitting the ready batch, a worker dequeuing a task (which
  sets its status to running and resolves its input against the store at
  that moment), a worker finishing (writing result, status and the store
  entry), the scheduler reaping one completed future after a submit
  (the break at line 238), the scheduler draining completed futures when
  nothing is ready (lines 210-220), terminating (line 207), or the bare
  continue of line 220.  Timestamps (floats) and the one-second timeout
  of as_completed are not modelled.
-/

namespace MiniAgent

/-- The four status tags of a task, line 102 of the source. -/
inductive Status where
  | pending
  | running
  | completed
  | failed
deriving DecidableEq, Repr

/-- The Task node of the source (timestamps omitted). -/
structure Task where
  task_id : String
  tool_name : String
  tool_input : String
  dependencies : List String
  result : Option String := none
  status : Status := Status.pending
deriving DecidableEq, Repr

/-- The result store self.results: an association list with Python dict
semantics (one entry per key). -/
abbrev Store := List (String × String)

/-- Dict lookup in the result store. -/
def lookupStore (k : String) : Store → Option String
  | [] => none
  | (k1, v) :: rest => if k1 = k then some v else lookupStore k rest

/-- Dict assignment self.results[k] = v: overwrite in place or append. -/
def insertStore (k v : String) : Store → Store
  | [] => [(k, v)]
  | (k1, v1) :: rest =>
      if k1 = k then (k, v) :: rest else (k1, v1) :: insertStore k v rest

/-- Dict lookup in self.tasks (keyed by task_id). -/
def lookupTask (tasks : List Task) (tid : String) : Option Task :=
  tasks.find? (fun t => t.task_id = tid)

/-- Dict assignment self.tasks[t.task_id] = t: overwrite in place or
append, exactly the Python dict behaviour of line 125. -/
def insertTask : List Task → Task → List Task
  | [], t => [t]
  | u :: us, t => if u.task_id = t.task_id then t :: us else u :: insertTask us t

/-- DAGExecutor.add_task (lines 123-125): unconditional dict assignment. -/
def add_task (tasks : List Task) (t : Task) : List Task :=
  insertTask tasks t

/-- The ASCII fragment of the regex class \w used by the pattern at
line 147: letters, digits and the underscore. -/
def isWordChar (c : Char) : Bool :=
  c.isAlphanum || c = '_'

/-- Fuelled scanner for re.findall applied to the pattern of line 147:
each match is the maximal nonempty run of word characters after a dollar
sign; scanning resumes after the run.  The fuel is the number of
characters still allowed to be consumed. -/
def findRefsAux : Nat → List Char → List (List Char)
  | 0, _ => []
  | _ + 1, [] => []
  | fuel + 1, c :: rest =>
      if c = '$' then
        let run := rest.takeWhile isWordChar
        if run = [] then findRefsAux fuel rest
        else run :: findRefsAux fuel (rest.dropWhile isWordChar)
      else findRefsAux fuel rest

/-- All dependency references of an input, in order of occurrence. -/
def findRefs (s : List Char) : List (List Char) :=
  findRefsAux s.length s

/-- Fuelled left-to-right non-overlapping replacement of every occurrence
of needle by repl, the semantics of str.replace at line 153.  Only used
with a nonempty needle (a dollar sign followed by a match). -/
def replaceAllAux (needle repl : List Char) : Nat → List Char → List Char
  | 0, s => s
  | _ + 1, [] => []
  | fuel + 1, c :: rest =>
      if needle.isPrefixOf (c :: rest) then
        repl ++ replaceAllAux needle repl fuel ((c :: rest).drop needle.length)
      else
        c :: replaceAllAux needle repl fuel rest

/-- str.replace; an empty needle does not occur in the source (the
needle is always a dollar sign followed by a nonempty match). -/
def replaceAll (needle repl s : List Char) : List Char :=
  if needle = [] then s else replaceAllAux needle repl s.length s

/-- DAGExecutor.resolve_dependencies (lines 142-155): find all references
in the raw input, then sequentially replace every occurrence of each
reference that has an entry in the result store. -/
def resolve_dependencies (results : Store) (task : Task) : String :=
  String.mk
    ((findRefs task.tool_input.data).foldl
      (fun input_text m =>
        match lookupStore (String.mk m) results with
        | some v => replaceAll ('$' :: m) v.data input_text
        | none => input_text)
      task.tool_input.data)

/-- DAGExecutor.get_ready_tasks (lines 127-140): the pending tasks all of
whose dependencies present in the graph are completed. -/
def get_ready_tasks (tasks : List Task) : List Task :=
  tasks.filter (fun t =>
    t.status == Status.pending &&
    t.dependencies.all (fun dep_id =>
      match lookupTask tasks dep_id with
      | some d => d.status == Status.completed
      | none => true))

/-- A tool dictionary: partial map from tool name to handler; the error
case of the handler stands for a raised exception. -/
def Tools := String → Option (String → Except String String)

/-- The outcome of one call of execute_task on a worker. -/
inductive Outcome where
  | ok (r : String)
  | failed (msg : String)
deriving DecidableEq, Repr

/-- The completion data computed by execute_task (lines 163-192) for a
resolved input: the outcome written back under the lock, and whether the
handler was actually invoked (it is not when the tool name is unknown). -/
def toolOutcome (tools : Tools) (name input : String) : Outcome × Bool :=
  match tools name with
  | some f =>
      (match f input with
       | Except.ok r => Outcome.ok r
       | Except.error e => Outcome.failed ("执行错误: " ++ e), true)
  | none => (Outcome.failed ("未知工具: " ++ name), false)

/-- DAGExecutor.execute_task (lines 157-192) run to completion against a
fixed store: returns the updated task, the updated store and the string
returned to the future. -/
def execute_task (tools : Tools) (results : Store) (task : Task) :
    Task × Store × String :=
  let running := { task with status := Status.running }
  let resolved_input := resolve_dependencies results running
  match toolOutcome tools running.tool_name resolved_input with
  | (Outcome.ok r, _) =>
      ({ running with result := some r, status := Status.completed },
       insertStore running.task_id r results, r)
  | (Outcome.failed msg, _) =>
      ({ running with result := some msg, status := Status.failed },
       results, msg)

/-- The mutable attributes of a DAGExecutor object (the lock is implicit
in the atomicity of the steps of the execution model). -/
structure DAGExecutorState where
  max_workers : Nat
  tasks : List Task
  results : Store
deriving DecidableEq, Repr

/-- The for-loop of lines 150-153 with the object state threaded through
each iteration: the body reads self.results and rebinds the local
input_text, and never writes the state. -/
def resolveLoopM :
    List (List Char) → List Char × DAGExecutorState →
      List Char × DAGExecutorState
  | [], acc => acc
  | m :: ms, (text, σ) =>
      match lookupStore (String.mk m) σ.results with
      | some v => resolveLoopM ms (replaceAll ('$' :: m) v.data text, σ)
      | none => resolveLoopM ms (text, σ)

/-- resolve_dependencies as the method actually reads the object state:
statement by statement, threading self through the loop of lines
150-153. -/
def resolveDependenciesM (task : Task) (σ : DAGExecutorState) :
    String × DAGExecutorState :=
  let input_text := task.tool_input.data
  let ms := findRefs input_text
  let final := resolveLoopM ms (input_text, σ)
  (String.mk final.1, final.2)

/-! ## The spec-side resolver

Section 4.2 and section 6 of the specification describe resolution as a
single simultaneous pass: every occurrence of a sigil-prefixed reference
is recognised and replaced by the referenced result.  To state the
refinement claims about resolve_dependencies we model that contract
directly: parse the input once into literal chunks and references, then
substitute every reference from the store in one pass. -/

/-- A parsed piece of a raw input: a literal chunk or a reference. -/
inductive Seg where
  | lit (l : List Char)
  | ref (m : List Char)
deriving DecidableEq, Repr

/-- Fuelled parser cutting an input into literal chunks and references,
with the same scan as findRefsAux. -/
def parseSegsAux : Nat → List Char → List Seg
  | 0, _ => []
  | _ + 1, [] => []
  | fuel + 1, c :: rest =>
      if c = '$' then
        let run := rest.takeWhile isWordChar
        if run = [] then Seg.lit [c] :: parseSegsAux fuel rest
        else Seg.ref run :: parseSegsAux fuel (rest.dropWhile isWordChar)
      else Seg.lit [c] :: parseSegsAux fuel rest

/-- Parse an input into literal chunks and references. -/
def parseSegs (s : List Char) : List Seg :=
  parseSegsAux s.length s

/-- Rebuild the text of a parsed input. -/
def flattenSegs : List Seg → List Char
  | [] => []
  | Seg.lit l :: rest => l ++ flattenSegs rest
  | Seg.ref m :: rest => '$' :: m ++ flattenSegs rest

/-- Modelled from the spec: substitute one reference from the store,
leaving it in place when the store has no entry. -/
def substSeg (store : Store) : Seg → Seg
  | Seg.lit l => Seg.lit l
  | Seg.ref m =>
      match lookupStore (String.mk m) store with
      | some v => Seg.lit v.data
      | none => Seg.ref m

/-- Modelled from the spec (sections 4.2 and 6): the single simultaneous
resolution pass — every occurrence of every reference is replaced by the
stored result of the referenced task, references without a store entry
are left unresolved. -/
def specResolve (store : Store) (input : String) : String :=
  String.mk (flattenSegs ((parseSegs input.data).map (substSeg store)))

/-- The reference ids of a parsed input, in order. -/
def refsOf : List Seg → List (List Char)
  | [] => []
  | Seg.lit _ :: rest => refsOf rest
  | Seg.ref m :: rest => m :: refsOf rest

/-- Substitute only the references with a given id. -/
def substOne (m0 v : List Char) : Seg → Seg
  | Seg.ref m => if m = m0 then Seg.lit v else Seg.ref m
  | seg => seg

/-- The effect, on one segment, of the sequential replacement loop of
lines 150-153 run over a list of match ids. -/
def applyMs (store : Store) : List (List Char) → Seg → Seg
  | [], seg => seg
  | m :: ms, seg =>
      applyMs store ms
        (match lookupStore (String.mk m) store with
         | some v => substOne m v.data seg
         | none => seg)

/-- A check that a literal chunk carries no bare sigil (a dollar sign not
followed by a word character parses as a literal). -/
def segNoBareDollar : Seg → Bool
  | Seg.lit l => !(l.contains '$')
  | Seg.ref _ => true

/-- The ids of R are mutually prefix-free. -/
def PrefFree (R : List (List Char)) : Prop :=
  ∀ m1 ∈ R, ∀ m2 ∈ R, m1 ≠ m2 → m1.isPrefixOf m2 = false

/-- Well-formed segments over a reference family R: literal chunks are
sigil-free and every reference id belongs to R, is nonempty and is made
of word characters. -/
def SegsOK (R : List (List Char)) (segs : List Seg) : Prop :=
  (∀ l, Seg.lit l ∈ segs → '$' ∉ l) ∧
  (∀ m, Seg.ref m ∈ segs → m ∈ R ∧ m ≠ [] ∧ ∀ c ∈ m, isWordChar c = true)

/-! ## The execution model of execute_dag -/

/-- Where the single scheduler thread of execute_dag (lines 194-240)
stands in its loop:

* loop — about to run one iteration (line 199).
* waitOne — ready tasks were just submitted; waiting to reap one
  completed future and re-evaluate (lines 228-238, break after one).
* drain — nothing was ready but futures were in flight; reaping every
  outstanding future before re-evaluating (lines 210-220).
* done — the break of line 207 was taken; the with-block of line 196
  still runs every queued future to completion on shutdown. -/
inductive Phase where
  | loop
  | waitOne
  | drain
  | done
deriving DecidableEq, Repr

/-- One global state of a run of execute_dag.  queued, running and
finished are the outstanding futures of future_to_task: submitted but not
yet picked up by a worker, being executed, and completed but not yet
reaped by the scheduler.  A running future carries the outcome its
execute_task call will write back, computed from the store as it was when
the worker dequeued the task (handlers are pure, so the outcome is
determined at that point).  invoked logs every task id whose handler was
actually called. -/
structure ExecState where
  tasks : List Task
  results : Store
  queued : List String
  running : List (String × Outcome)
  finished : List String
  invoked : List String
  phase : Phase
deriving DecidableEq, Repr

/-- The ids of the ready tasks as the loop iteration of line 201 sees
them. -/
def readyIds (s : ExecState) : List String :=
  (get_ready_tasks s.tasks).map Task.task_id

/-- Line 205: tasks still pending or running. -/
def pendingRemain (s : ExecState) : Bool :=
  s.tasks.any (fun t => t.status == Status.pending || t.status == Status.running)

/-- Line 210 and line 228: future_to_task is nonempty. -/
def futuresNonempty (s : ExecState) : Bool :=
  !(s.queued.isEmpty && s.running.isEmpty && s.finished.isEmpty)

/-- The unconditional status assignment of line 160 (and the terminal
writes of lines 172-190) applied to the task dict. -/
def setStatus (tasks : List Task) (tid : String) (st : Status) : List Task :=
  tasks.map (fun t => if t.task_id = tid then { t with status := st } else t)

/-- The completion write of lines 171-175 / 180-183 / 188-191 applied to
the task dict. -/
def applyOutcome (tasks : List Task) (tid : String) (out : Outcome) : List Task :=
  tasks.map (fun t =>
    if t.task_id = tid then
      match out with
      | Outcome.ok r => { t with status := Status.completed, result := some r }
      | Outcome.failed msg => { t with status := Status.failed, result := some msg }
    else t)

/-- The store write of line 175: only a successful task writes its
entry. -/
def applyStore (results : Store) (tid : String) (out : Outcome) : Store :=
  match out with
  | Outcome.ok r => insertStore tid r results
  | Outcome.failed _ => results

/-- One atomic step of a run of execute_dag with worker-pool bound W.
The scheduler steps are the loop decisions of lines 199-238; start and
finish are the two lock-protected halves of execute_task running on a
worker, which may interleave with the scheduler and with each other.  A
worker may dequeue work in any phase (the pool runs independently, and
after the break of line 207 the with-block shutdown still runs every
queued future). -/
inductive Step (tools : Tools) (W : Nat) : ExecState → ExecState → Prop
  | eval_submit (s : ExecState)
      (hp : s.phase = Phase.loop) (hr : readyIds s ≠ []) :
      Step tools W s
        { s with queued := s.queued ++ readyIds s, phase := Phase.waitOne }
  | eval_done (s : ExecState)
      (hp : s.phase = Phase.loop) (hr : readyIds s = [])
      (hpend : pendingRemain s = false) :
      Step tools W s { s with phase := Phase.done }
  | eval_drain (s : ExecState)
      (hp : s.phase = Phase.loop) (hr : readyIds s = [])
      (hpend : pendingRemain s = true) (hf : futuresNonempty s = true) :
      Step tools W s { s with phase := Phase.drain }
  | eval_spin (s : ExecState)
      (hp : s.phase = Phase.loop) (hr : readyIds s = [])
      (hpend : pendingRemain s = true) (hf : futuresNonempty s = false) :
      Step tools W s s
  | start (s : ExecState) (tid : String) (rest : List String) (t : Task)
      (hq : s.queued = tid :: rest) (hw : s.running.length < W)
      (ht : lookupTask s.tasks tid = some t) :
      Step tools W s
        { s with
          queued := rest,
          tasks := setStatus s.tasks tid Status.running,
          running := s.running ++
            [(tid, (toolOutcome tools t.tool_name (resolve_dependencies s.results t)).1)],
          invoked := s.invoked ++
            (if (toolOutcome tools t.tool_name (resolve_dependencies s.results t)).2
             then [tid] else []) }
  | finish (s : ExecState) (l1 l2 : List (String × Outcome)) (tid : String)
      (out : Outcome) (hr : s.running = l1 ++ (tid, out) :: l2) :
      Step tools W s
        { s with
          running := l1 ++ l2,
          finished := s.finished ++ [tid],
          tasks := applyOutcome s.tasks tid out,
          results := applyStore s.results tid out }
  | reap_one (s : ExecState) (f1 f2 : List String) (tid : String)
      (hp : s.phase = Phase.waitOne) (hf : s.finished = f1 ++ tid :: f2) :
      Step tools W s
        { s with finished := f1 ++ f2, phase := Phase.loop }
  | reap_drain (s : ExecState) (f1 f2 : List String) (tid : String)
      (hp : s.phase = Phase.drain) (hf : s.finished = f1 ++ tid :: f2) :
      Step tools W s
        { s with
          finished := f1 ++ f2,
          phase :=
            if s.queued = [] ∧ s.running = [] ∧ f1 ++ f2 = []
            then Phase.loop else Phase.drain }

/-- Reachability along steps of the execution model. -/
def reaches (tools : Tools) (W : Nat) : ExecState → ExecState → Prop :=
  Relation.ReflTransGen (Step tools W)

/-- A finished run: the break of line 207 was taken and the pool has shut
down (no future left queued or running), so execute_dag has returned
self.results. -/
def Terminal (s : ExecState) : Prop :=
  s.phase = Phase.done ∧ s.queued = [] ∧ s.running = []

/-- The state of execute_dag on entry, for a graph built by add_task
calls: empty store, no futures, scheduler about to run its first
iteration. -/
def initState (G : List Task) : ExecState :=
  { tasks := G, results := [], queued := [], running := [], finished := [],
    invoked := [], phase := Phase.loop }

/-! ## Notions for the determinism analysis of execute_dag -/

/-- The immutable fields of a task: id, operation, raw input and
dependency list. -/
def skel (t : Task) : String × String × String × List String :=
  (t.task_id, t.tool_name, t.tool_input, t.dependencies)

/-- Two task dicts carry the same tasks up to mutable state (status,
result). -/
def sameSkeleton (a b : List Task) : Prop :=
  a.map skel = b.map skel

/-- Every declared dependency of t has an entry in the store. -/
def depsEntriesPresent (res : Store) (t : Task) : Prop :=
  ∀ d ∈ t.dependencies, (lookupStore d res).isSome = true

/-- One store extends another: every present entry keeps its value. -/
def storeExtends (a b : Store) : Prop :=
  ∀ k v, lookupStore k a = some v → lookupStore k b = some v

/-- A well-formed input graph for execute_dag: unique ids, all tasks
still pending, declared dependencies present in the graph, and every
reference in a raw input declared as a dependency. -/
structure GoodGraph (G : List Task) : Prop where
  nodup : (G.map Task.task_id).Nodup
  pend : ∀ t ∈ G, t.status = Status.pending
  depsIn : ∀ t ∈ G, ∀ d ∈ t.dependencies, ∃ u ∈ G, u.task_id = d
  refsDecl : ∀ t ∈ G, ∀ m ∈ findRefs t.tool_input.data,
    String.mk m ∈ t.dependencies

/-- The inductive invariant of a run of execute_dag over a well-formed
graph: the task dict keeps the graph's skeleton, every store entry is
the handler output of its task evaluated on the current store (store
entries never change value), terminal statuses are coherent with the
store and the registry, and every queued or running future belongs to a
graph task whose dependency entries are already present. -/
structure ExecInv (G : List Task) (tools : Tools) (s : ExecState) : Prop where
  skel_eq : sameSkeleton G s.tasks
  store_dom : ∀ p ∈ s.results, ∃ t ∈ G, t.task_id = Prod.fst p ∧
      depsEntriesPresent s.results t ∧
      ∃ f, tools t.tool_name = some f ∧
        f (resolve_dependencies s.results t) = Except.ok (Prod.snd p)
  completed_entry : ∀ t ∈ s.tasks, t.status = Status.completed →
      (lookupStore t.task_id s.results).isSome = true
  failed_coh : ∀ t ∈ s.tasks, t.status = Status.failed →
      (tools t.tool_name = none ∨
        ∃ f e, tools t.tool_name = some f ∧
          f (resolve_dependencies s.results t) = Except.error e)
  started_deps : ∀ t ∈ s.tasks, t.status ≠ Status.pending →
      depsEntriesPresent s.results t
  run_coh : ∀ p ∈ s.running, ∃ t ∈ G, t.task_id = Prod.fst p ∧
      depsEntriesPresent s.results t ∧
      Prod.snd p =
        (toolOutcome tools t.tool_name (resolve_dependencies s.results t)).1
  queue_coh : ∀ tid ∈ s.queued, ∃ t ∈ G, t.task_id = tid ∧
      depsEntriesPresent s.results t
  running_has_inv : ∀ t ∈ s.tasks, t.status = Status.running →
      ∃ p ∈ s.running, Prod.fst p = t.task_id
  done_no_pending : s.phase = Phase.done →
      ∀ t ∈ s.tasks, t.status ≠ Status.pending

/-! ## Concrete instances used to settle the claims -/

/-- A registry with one echo tool whose handler succeeds with its
resolved input. -/
def echoTools : Tools := fun name =>
  if name = "echo" then some (fun input => Except.ok input) else none

/-- The empty registry: every tool name is unknown. -/
def noTools : Tools := fun _ => none

/-- Two independent tasks for the duplicate-dispatch analysis. -/
def taskT1 : Task :=
  { task_id := "t1", tool_name := "echo", tool_input := "x", dependencies := [] }

def taskT2 : Task :=
  { task_id := "t2", tool_name := "echo", tool_input := "y", dependencies := [] }

/-- Start state of execute_dag on the graph with tasks t1 and t2. -/
def dupInit : ExecState := initState [taskT1, taskT2]

/-- Two tasks where B references A without declaring the dependency. -/
def taskA : Task :=
  { task_id := "A", tool_name := "echo", tool_input := "1", dependencies := [] }

def taskB : Task :=
  { task_id := "B", tool_name := "echo", tool_input := "$A", dependencies := [] }

/-- Start state of execute_dag on the graph with tasks A and B. -/
def raceInit : ExecState := initState [taskA, taskB]

/-- A two-task dependency cycle. -/
def cycTaskA : Task :=
  { task_id := "A", tool_name := "echo", tool_input := "a", dependencies := ["B"] }

def cycTaskB : Task :=
  { task_id := "B", tool_name := "echo", tool_input := "b", dependencies := ["A"] }

/-- Start state of execute_dag on the cyclic graph. -/
def cycInit : ExecState := initState [cycTaskA, cycTaskB]

/-- A single independent task, for a complete run of the model. -/
def soloTask : Task :=
  { task_id := "s1", tool_name := "echo", tool_input := "in", dependencies := [] }

/-- Start state of execute_dag on the one-task graph. -/
def soloInit : ExecState := initState [soloTask]

/-- A completed task A and a pending task B depending on it. -/
def doneA : Task :=
  { task_id := "A", tool_name := "echo", tool_input := "1", dependencies := [],
    result := some "1", status := Status.completed }

def readyB : Task :=
  { task_id := "B", tool_name := "echo", tool_input := "$A", dependencies := ["A"] }

/-- A pending task whose two dependency ids are absent from the graph. -/
def orphanT : Task :=
  { task_id := "o", tool_name := "echo", tool_input := "$X plus $Y",
    dependencies := ["X", "Y"] }

/-- A pending task mixing a present, completed dependency (A) with a
dependency id absent from the graph (Z). -/
def mixedT : Task :=
  { task_id := "m", tool_name := "echo", tool_input := "$A and $Z",
    dependencies := ["A", "Z"] }

/-- A task referencing task id B without declaring it. -/
def undeclT : Task :=
  { task_id := "t", tool_name := "echo", tool_input := "use $B", dependencies := [] }

/-- Two distinct tasks sharing the id A, for the duplicate add_task
analysis. -/
def addT1 : Task :=
  { task_id := "A", tool_name := "search", tool_input := "x", dependencies := [] }

def addT2 : Task :=
  { task_id := "A", tool_name := "calculator", tool_input := "y", dependencies := [] }

/-- A task whose raw input holds two references, one id a prefix of the
other. -/
def prefixT : Task :=
  { task_id := "p", tool_name := "echo", tool_input := "$A $AB", dependencies := ["A", "AB"] }

/-- A task with two distinct references, scenario D of the spec. -/
def scenDT : Task :=
  { task_id := "d", tool_name := "echo", tool_input := "$A and $B",
    dependencies := ["A", "B"] }

/-- A task used by the unknown-tool analysis. -/
def unknownToolT : Task :=
  { task_id := "u", tool_name := "nosuch", tool_input := "z", dependencies := [] }

/-! ## Basic lemmas about the fuelled scanners -/

theorem length_dropWhile_le (p : Char → Bool) (l : List Char) :
    (l.dropWhile p).length ≤ l.length :=
  List.Sublist.length_le (List.dropWhile_sublist p)

theorem findRefsAux_stable (f : Nat) :
    ∀ (g : Nat) (s : List Char), s.length ≤ f → s.length ≤ g →
      findRefsAux f s = findRefsAux g s := by
  induction f with
  | zero =>
      intro g s hf _
      have hs : s = [] := List.eq_nil_of_length_eq_zero (Nat.le_zero.mp hf)
      subst hs
      cases g <;> rfl
  | succ f ih =>
      intro g s hf hg
      cases s with
      | nil => cases g <;> rfl
      | cons c rest =>
          cases g with
          | zero => exact absurd hg (by simp)
          | succ g =>
              have hf1 : rest.length ≤ f := by simpa using hf
              have hg1 : rest.length ≤ g := by simpa using hg
              have hd : (rest.dropWhile isWordChar).length ≤ rest.length :=
                length_dropWhile_le _ _
              show findRefsAux (f + 1) (c :: rest) = findRefsAux (g + 1) (c :: rest)
              simp only [findRefsAux]
              by_cases hc : c = '$'
              · rw [if_pos hc, if_pos hc]
                by_cases hrun : rest.takeWhile isWordChar = []
                · rw [if_pos hrun, if_pos hrun, ih g rest hf1 hg1]
                · rw [if_neg hrun, if_neg hrun,
                    ih g (rest.dropWhile isWordChar) (le_trans hd hf1) (le_trans hd hg1)]
              · rw [if_neg hc, if_neg hc, ih g rest hf1 hg1]

theorem findRefs_nil : findRefs [] = [] := rfl

theorem findRefs_cons_not_dollar (c : Char) (rest : List Char) (hc : c ≠ '$') :
    findRefs (c :: rest) = findRefs rest := by
  show findRefsAux (rest.length + 1) (c :: rest) = findRefsAux rest.length rest
  simp only [findRefsAux]
  rw [if_neg hc]

theorem findRefs_dollar_no_run (rest : List Char)
    (h : rest.takeWhile isWordChar = []) :
    findRefs ('$' :: rest) = findRefs rest := by
  have e : findRefs ('$' :: rest) =
      (if rest.takeWhile isWordChar = [] then findRefsAux rest.length rest
       else rest.takeWhile isWordChar ::
         findRefsAux rest.length (rest.dropWhile isWordChar)) := rfl
  rw [e, if_pos h]
  rfl

theorem findRefs_dollar_run (rest : List Char)
    (h : rest.takeWhile isWordChar ≠ []) :
    findRefs ('$' :: rest) =
      rest.takeWhile isWordChar :: findRefs (rest.dropWhile isWordChar) := by
  have e : findRefs ('$' :: rest) =
      (if rest.takeWhile isWordChar = [] then findRefsAux rest.length rest
       else rest.takeWhile isWordChar ::
         findRefsAux rest.length (rest.dropWhile isWordChar)) := rfl
  rw [e, if_neg h]
  rw [findRefsAux_stable rest.length (rest.dropWhile isWordChar).length
    (rest.dropWhile isWordChar) (length_dropWhile_le _ _) le_rfl]
  rfl

theorem parseSegsAux_stable (f : Nat) :
    ∀ (g : Nat) (s : List Char), s.length ≤ f → s.length ≤ g →
      parseSegsAux f s = parseSegsAux g s := by
  induction f with
  | zero =>
      intro g s hf _
      have hs : s = [] := List.eq_nil_of_length_eq_zero (Nat.le_zero.mp hf)
      subst hs
      cases g <;> rfl
  | succ f ih =>
      intro g s hf hg
      cases s with
      | nil => cases g <;> rfl
      | cons c rest =>
          cases g with
          | zero => exact absurd hg (by simp)
          | succ g =>
              have hf1 : rest.length ≤ f := by simpa using hf
              have hg1 : rest.length ≤ g := by simpa using hg
              have hd : (rest.dropWhile isWordChar).length ≤ rest.length :=
                length_dropWhile_le _ _
              show parseSegsAux (f + 1) (c :: rest) = parseSegsAux (g + 1) (c :: rest)
              simp only [parseSegsAux]
              by_cases hc : c = '$'
              · rw [if_pos hc, if_pos hc]
                by_cases hrun : rest.takeWhile isWordChar = []
                · rw [if_pos hrun, if_pos hrun, ih g rest hf1 hg1]
                · rw [if_neg hrun, if_neg hrun,
                    ih g (rest.dropWhile isWordChar) (le_trans hd hf1) (le_trans hd hg1)]
              · rw [if_neg hc, if_neg hc, ih g rest hf1 hg1]

theorem parseSegs_nil : parseSegs [] = [] := rfl

theorem parseSegs_cons_not_dollar (c : Char) (rest : List Char) (hc : c ≠ '$') :
    parseSegs (c :: rest) = Seg.lit [c] :: parseSegs rest := by
  show parseSegsAux (rest.length + 1) (c :: rest) = _
  simp only [parseSegsAux]
  rw [if_neg hc]
  rfl

theorem parseSegs_dollar_no_run (rest : List Char)
    (h : rest.takeWhile isWordChar = []) :
    parseSegs ('$' :: rest) = Seg.lit ['$'] :: parseSegs rest := by
  have e : parseSegs ('$' :: rest) =
      (if rest.takeWhile isWordChar = [] then
        Seg.lit ['$'] :: parseSegsAux rest.length rest
       else Seg.ref (rest.takeWhile isWordChar) ::
         parseSegsAux rest.length (rest.dropWhile isWordChar)) := rfl
  rw [e, if_pos h]
  rfl

theorem parseSegs_dollar_run (rest : List Char)
    (h : rest.takeWhile isWordChar ≠ []) :
    parseSegs ('$' :: rest) =
      Seg.ref (rest.takeWhile isWordChar) :: parseSegs (rest.dropWhile isWordChar) := by
  have e : parseSegs ('$' :: rest) =
      (if rest.takeWhile isWordChar = [] then
        Seg.lit ['$'] :: parseSegsAux rest.length rest
       else Seg.ref (rest.takeWhile isWordChar) ::
         parseSegsAux rest.length (rest.dropWhile isWordChar)) := rfl
  rw [e, if_neg h]
  rw [parseSegsAux_stable rest.length (rest.dropWhile isWordChar).length
    (rest.dropWhile isWordChar) (length_dropWhile_le _ _) le_rfl]
  rfl

theorem replaceAllAux_stable (needle repl : List Char) (hn : needle ≠ []) (f : Nat) :
    ∀ (g : Nat) (s : List Char), s.length ≤ f → s.length ≤ g →
      replaceAllAux needle repl f s = replaceAllAux needle repl g s := by
  induction f with
  | zero =>
      intro g s hf _
      have hs : s = [] := List.eq_nil_of_length_eq_zero (Nat.le_zero.mp hf)
      subst hs
      cases g <;> rfl
  | succ f ih =>
      intro g s hf hg
      cases s with
      | nil => cases g <;> rfl
      | cons c rest =>
          cases g with
          | zero => exact absurd hg (by simp)
          | succ g =>
              have hf1 : rest.length ≤ f := by simpa using hf
              have hg1 : rest.length ≤ g := by simpa using hg
              have hlen : 1 ≤ needle.length :=
                Nat.one_le_iff_ne_zero.mpr (by simpa using hn)
              have hd : ((c :: rest).drop needle.length).length ≤ rest.length := by
                rw [List.length_drop]
                simp only [List.length_cons]
                omega
              show replaceAllAux needle repl (f + 1) (c :: rest) =
                replaceAllAux needle repl (g + 1) (c :: rest)
              simp only [replaceAllAux]
              by_cases hp : needle.isPrefixOf (c :: rest)
              · rw [if_pos hp, if_pos hp,
                  ih g ((c :: rest).drop needle.length) (le_trans hd hf1) (le_trans hd hg1)]
              · rw [if_neg hp, if_neg hp, ih g rest hf1 hg1]

theorem replaceAll_nil (needle repl : List Char) : replaceAll needle repl [] = [] := by
  unfold replaceAll
  split <;> rfl

theorem replaceAll_pos (needle repl : List Char) (c : Char) (rest : List Char)
    (hn : needle ≠ []) (hp : needle.isPrefixOf (c :: rest)) :
    replaceAll needle repl (c :: rest) =
      repl ++ replaceAll needle repl ((c :: rest).drop needle.length) := by
  have hlen : 1 ≤ needle.length := Nat.one_le_iff_ne_zero.mpr (by simpa using hn)
  have hd : ((c :: rest).drop needle.length).length ≤ rest.length := by
    rw [List.length_drop]
    simp only [List.length_cons]
    omega
  unfold replaceAll
  rw [if_neg hn, if_neg hn]
  show replaceAllAux needle repl (rest.length + 1) (c :: rest) = _
  simp only [replaceAllAux]
  rw [if_pos hp]
  congr 1
  exact replaceAllAux_stable needle repl hn rest.length
    ((c :: rest).drop needle.length).length ((c :: rest).drop needle.length) hd le_rfl

theorem replaceAll_neg (needle repl : List Char) (c : Char) (rest : List Char)
    (hn : needle ≠ []) (hp : ¬ needle.isPrefixOf (c :: rest)) :
    replaceAll needle repl (c :: rest) = c :: replaceAll needle repl rest := by
  unfold replaceAll
  rw [if_neg hn, if_neg hn]
  show replaceAllAux needle repl (rest.length + 1) (c :: rest) = _
  simp only [replaceAllAux]
  rw [if_neg hp]

/-! ## Dictionary lemmas -/

theorem mkData (s : String) : String.mk s.data = s := by
  cases s
  rfl

theorem lookupTask_insertTask_self (tasks : List Task) (t : Task) :
    lookupTask (insertTask tasks t) t.task_id = some t := by
  induction tasks with
  | nil =>
      simp [insertTask, lookupTask, List.find?]
  | cons u us ih =>
      by_cases h : u.task_id = t.task_id
      · simp [insertTask, h, lookupTask, List.find?]
      · simp only [insertTask, if_neg h]
        unfold lookupTask
        rw [List.find?_cons_of_neg _ (by simpa using h)]
        exact ih

theorem lookupTask_insertTask_ne (tasks : List Task) (t : Task) (tid : String)
    (h : tid ≠ t.task_id) :
    lookupTask (insertTask tasks t) tid = lookupTask tasks tid := by
  induction tasks with
  | nil =>
      unfold insertTask lookupTask
      rw [List.find?_cons_of_neg _ (by simpa using Ne.symm h)]
  | cons u us ih =>
      by_cases hu : u.task_id = t.task_id
      · simp only [insertTask, if_pos hu]
        unfold lookupTask
        rw [List.find?_cons_of_neg _ (by simpa using fun hh => h (Eq.symm hh))]
        rw [List.find?_cons_of_neg _ (by simp [hu]; exact fun hh => h (Eq.symm hh))]
      · simp only [insertTask, if_neg hu]
        unfold lookupTask
        by_cases hc : u.task_id = tid
        · rw [List.find?_cons_of_pos _ (by simpa using hc),
            List.find?_cons_of_pos _ (by simpa using hc)]
        · rw [List.find?_cons_of_neg _ (by simpa using hc),
            List.find?_cons_of_neg _ (by simpa using hc)]
          exact ih

theorem insertTask_length_of_present (tasks : List Task) (t : Task)
    (h : (lookupTask tasks t.task_id).isSome = true) :
    (insertTask tasks t).length = tasks.length := by
  induction tasks with
  | nil => simp [lookupTask, List.find?] at h
  | cons u us ih =>
      by_cases hu : u.task_id = t.task_id
      · simp [insertTask, if_pos hu]
      · simp only [insertTask, if_neg hu, List.length_cons]
        congr 1
        apply ih
        unfold lookupTask at h
        rw [List.find?_cons_of_neg _ (by simpa using hu)] at h
        exact h

/-! ## Readiness lemmas -/

theorem mem_get_ready_tasks (tasks : List Task) (t : Task) :
    t ∈ get_ready_tasks tasks ↔
      t ∈ tasks ∧ t.status = Status.pending ∧
        ∀ d ∈ t.dependencies, ∀ u, lookupTask tasks d = some u →
          u.status = Status.completed := by
  unfold get_ready_tasks
  rw [List.mem_filter]
  simp only [Bool.and_eq_true, beq_iff_eq, List.all_eq_true]
  constructor
  · rintro ⟨hmem, hstat, hall⟩
    refine ⟨hmem, hstat, ?_⟩
    intro d hd u hu
    have hx := hall d hd
    rw [hu] at hx
    simpa using hx
  · rintro ⟨hmem, hstat, hdep⟩
    refine ⟨hmem, hstat, ?_⟩
    intro d hd
    cases hlu : lookupTask tasks d with
    | none => simp
    | some u =>
        simpa using hdep d hd u hlu

/-! ## Claim theorems -/

/-- C4, counterexample: add_task with an already registered id raises no
error and replaces the previously registered task, so the previously
registered task does not stay unchanged as the claim states. -/
theorem c4_counterexample :
    add_task (add_task [] addT1) addT2 = [addT2] ∧
    lookupTask (add_task (add_task [] addT1) addT2) "A" = some addT2 ∧
    addT2 ≠ addT1 := by
  refine ⟨rfl, rfl, ?_⟩
  decide

/-- C4, amended: add_task registers the task unconditionally; when the id
is already registered it replaces the previously registered task in place
(same position, graph size unchanged) and raises no error; other ids are
unaffected. -/
theorem c4_amended (tasks : List Task) (t : Task) :
    lookupTask (add_task tasks t) t.task_id = some t ∧
    (∀ tid, tid ≠ t.task_id →
      lookupTask (add_task tasks t) tid = lookupTask tasks tid) ∧
    ((lookupTask tasks t.task_id).isSome = true →
      (add_task tasks t).length = tasks.length) :=
  ⟨lookupTask_insertTask_self tasks t,
   fun tid h => lookupTask_insertTask_ne tasks t tid h,
   fun h => insertTask_length_of_present tasks t h⟩

/-- C4, witness for the amended claim at a concrete duplicate add. -/
theorem c4_amended_witness :
    lookupTask (add_task [addT1] addT2) "A" = some addT2 ∧
    lookupTask (add_task [addT1] addT2) "B" = lookupTask [addT1] "B" ∧
    (add_task [addT1] addT2).length = 1 :=
  ⟨(c4_amended [addT1] addT2).1,
   (c4_amended [addT1] addT2).2.1 "B" (by decide),
   (c4_amended [addT1] addT2).2.2 (by decide)⟩

/-- C3: over a graph whose listed dependency ids all name present tasks,
get_ready_tasks returns exactly the pending tasks all of whose
dependencies are completed; in particular a task with a failed dependency
is never returned. -/
theorem c3_ready_iff (tasks : List Task)
    (hclosed : ∀ t ∈ tasks, ∀ d ∈ t.dependencies,
      (lookupTask tasks d).isSome = true)
    (t : Task) :
    (t ∈ get_ready_tasks tasks ↔
      t ∈ tasks ∧ t.status = Status.pending ∧
        ∀ d ∈ t.dependencies, ∃ u, lookupTask tasks d = some u ∧
          u.status = Status.completed) ∧
    ((t ∈ tasks ∧ ∃ d ∈ t.dependencies, ∃ u, lookupTask tasks d = some u ∧
        u.status = Status.failed) →
      t ∉ get_ready_tasks tasks) := by
  constructor
  · rw [mem_get_ready_tasks]
    constructor
    · rintro ⟨hmem, hstat, hdep⟩
      refine ⟨hmem, hstat, ?_⟩
      intro d hd
      rcases Option.isSome_iff_exists.mp (hclosed t hmem d hd) with ⟨u, hu⟩
      exact ⟨u, hu, hdep d hd u hu⟩
    · rintro ⟨hmem, hstat, hdep⟩
      refine ⟨hmem, hstat, ?_⟩
      intro d hd u hu
      rcases hdep d hd with ⟨u2, hu2, hc⟩
      rw [hu] at hu2
      cases hu2
      exact hc
  · rintro ⟨hmem, d, hd, u, hu, hfail⟩ hready
    rcases (mem_get_ready_tasks tasks t).mp hready with ⟨_, _, hdep⟩
    have := hdep d hd u hu
    rw [hfail] at this
    cases this

/-- C3, witness: with A completed, B (depending on A) is ready. -/
theorem c3_witness : readyB ∈ get_ready_tasks [doneA, readyB] := by
  refine ((c3_ready_iff [doneA, readyB] (by decide) readyB).1).mpr
    ⟨by simp, rfl, ?_⟩
  intro d hd
  have hd2 : d = "A" := by simpa [readyB] using hd
  subst hd2
  exact ⟨doneA, rfl, rfl⟩

/-- C9: a dependency id absent from the graph is ignored by readiness
evaluation.  First conjunct, the general characterization: a task is
returned by get_ready_tasks exactly when it is in the graph, pending,
and every dependency id that does name a present task names a completed
one — absent ids place no constraint, so a task mixing absent ids with
completed in-graph dependencies is ready, and one all of whose
dependency ids are absent is immediately ready.  Second conjunct: when
none of the input's referenced ids has a store entry, resolution leaves
every reference in place (the task runs with its references
unresolved), for an arbitrary store. -/
theorem c9_absent_ignored (tasks : List Task) (t : Task) (store : Store) :
    (t ∈ get_ready_tasks tasks ↔
      t ∈ tasks ∧ t.status = Status.pending ∧
        ∀ d ∈ t.dependencies, ∀ u, lookupTask tasks d = some u →
          u.status = Status.completed) ∧
    ((∀ m ∈ findRefs t.tool_input.data,
        lookupStore (String.mk m) store = none) →
      resolve_dependencies store t = t.tool_input) := by
  constructor
  · exact mem_get_ready_tasks tasks t
  · intro habs
    unfold resolve_dependencies
    have hfold : ∀ ms : List (List Char),
        (∀ m ∈ ms, lookupStore (String.mk m) store = none) →
        ∀ text : List Char,
        ms.foldl (fun input_text m =>
          match lookupStore (String.mk m) store with
          | some v => replaceAll ('$' :: m) v.data input_text
          | none => input_text) text = text := by
      intro ms
      induction ms with
      | nil => intro _ text; rfl
      | cons m rest ih =>
          intro hh text
          have hm := hh m (List.mem_cons_self _ _)
          simp only [List.foldl_cons, hm]
          exact ih (fun x hx => hh x (List.mem_cons_of_mem m hx)) text
    rw [hfold _ habs]

/-- C9, witness: the mixed case — a pending task depending on the
completed in-graph task A and on the absent id Z is ready at once — and
a task whose referenced ids have no entries in a nonempty store keeps
both references unresolved. -/
theorem c9_mixed_witness :
    mixedT ∈ get_ready_tasks [doneA, mixedT] ∧
    resolve_dependencies [("other", "x")] orphanT = "$X plus $Y" := by
  constructor
  · refine ((c9_absent_ignored [doneA, mixedT] mixedT []).1).mpr
      ⟨by simp, rfl, ?_⟩
    intro d hd u hu
    have hd2 : d = "A" ∨ d = "Z" := by simpa [mixedT] using hd
    rcases hd2 with h | h
    · subst h
      rw [show lookupTask [doneA, mixedT] "A" = some doneA from rfl] at hu
      injection hu with h2
      rw [← h2]
      rfl
    · subst h
      rw [show lookupTask [doneA, mixedT] "Z" = none from rfl] at hu
      cases hu
  · exact (c9_absent_ignored [] orphanT [("other", "x")]).2 (by decide)

/-- C10: substitution is driven solely by the result store — the declared
dependency list plays no part (first conjunct), and a reference to an
undeclared task id is substituted exactly when that id has a store entry
(last two conjuncts, on the concrete task undeclT whose input references
B while declaring no dependencies). -/
theorem c10_store_driven (results : Store) (t : Task) (l : List String) :
    resolve_dependencies results { t with dependencies := l } =
      resolve_dependencies results t ∧
    resolve_dependencies [("B", "42")] undeclT = "use 42" ∧
    resolve_dependencies [] undeclT = "use $B" := by
  refine ⟨rfl, ?_, ?_⟩ <;> decide

/-- The state-threaded resolution loop returns the state unchanged and
computes the same text as the foldl of the pure resolver. -/
theorem resolveLoopM_eq (ms : List (List Char)) :
    ∀ (text : List Char) (σ : DAGExecutorState),
      resolveLoopM ms (text, σ) =
        (ms.foldl
          (fun input_text m =>
            match lookupStore (String.mk m) σ.results with
            | some v => replaceAll ('$' :: m) v.data input_text
            | none => input_text)
          text, σ) := by
  induction ms with
  | nil => intro text σ; rfl
  | cons m rest ih =>
      intro text σ
      cases hl : lookupStore (String.mk m) σ.results with
      | some v =>
          simp only [resolveLoopM, hl, List.foldl_cons]
          exact ih _ σ
      | none =>
          simp only [resolveLoopM, hl, List.foldl_cons]
          exact ih _ σ

/-- C7: dependency resolution is pure.  Run against the executor object
state it leaves the state — the task dict and the result store — exactly
as it was and returns the value of the pure function of the store and the
raw input (first conjunct); two calls on states carrying the same store
return the same string (second conjunct); and resolving again in the
state left by a first resolution returns the same output (third
conjunct). -/
theorem c7_resolve_pure (t : Task) (σ : DAGExecutorState) :
    resolveDependenciesM t σ = (resolve_dependencies σ.results t, σ) ∧
    (∀ σ2 : DAGExecutorState, σ2.results = σ.results →
      (resolveDependenciesM t σ2).1 = (resolveDependenciesM t σ).1) ∧
    resolveDependenciesM t (resolveDependenciesM t σ).2 =
      resolveDependenciesM t σ := by
  have key : ∀ σ0 : DAGExecutorState,
      resolveDependenciesM t σ0 = (resolve_dependencies σ0.results t, σ0) := by
    intro σ0
    simp only [resolveDependenciesM, resolve_dependencies]
    rw [resolveLoopM_eq]
  refine ⟨key σ, ?_, ?_⟩
  · intro σ2 h2
    rw [key σ2, key σ]
    unfold resolve_dependencies
    rw [h2]
  · rw [key σ, key σ]

/-- C7, witness: the purity theorem applied at a concrete store and
task. -/
theorem c7_witness :
    resolveDependenciesM readyB
        { max_workers := 3, tasks := [doneA, readyB], results := [("A", "1")] } =
      ("1",
        { max_workers := 3, tasks := [doneA, readyB], results := [("A", "1")] }) ∧
    (resolveDependenciesM readyB
        { max_workers := 1, tasks := [], results := [("A", "1")] }).1 =
      (resolveDependenciesM readyB
        { max_workers := 3, tasks := [doneA, readyB], results := [("A", "1")] }).1 := by
  constructor
  · rw [(c7_resolve_pure readyB _).1]
    decide
  · exact (c7_resolve_pure readyB
      { max_workers := 3, tasks := [doneA, readyB], results := [("A", "1")] }).2.1
      { max_workers := 1, tasks := [], results := [("A", "1")] } rfl

/-- C6: execute_task surfaces every task-level failure as state, never as
an exception.  When the operation has no registered handler, or the
handler raises, the returned task is failed with the error message stored
in its result, the same message is handed back to the future, and the
result store is left without an entry for the task (unchanged). -/
theorem c6_execute_task_failure (tools : Tools) (results : Store) (task : Task)
    (h : tools task.tool_name = none ∨
      ∃ f, tools task.tool_name = some f ∧
        ∃ e, f (resolve_dependencies results
          { task with status := Status.running }) = Except.error e) :
    (execute_task tools results task).1.status = Status.failed ∧
    (∃ msg, (execute_task tools results task).1.result = some msg ∧
      (execute_task tools results task).2.2 = msg) ∧
    (execute_task tools results task).2.1 = results := by
  rcases h with hnone | ⟨f, hf, e, he⟩
  · unfold execute_task toolOutcome
    simp only [hnone]
    simp
  · unfold execute_task toolOutcome
    simp only [hf, he]
    simp

/-- C6, witness: a task with an unregistered operation ends failed with
the unknown-tool message, and the store stays empty. -/
theorem c6_witness :
    (execute_task noTools [] unknownToolT).1.status = Status.failed ∧
    (execute_task noTools [] unknownToolT).1.result = some "未知工具: nosuch" ∧
    (execute_task noTools [] unknownToolT).2.1 = [] := by
  refine ⟨(c6_execute_task_failure noTools [] unknownToolT (Or.inl rfl)).1, ?_,
    (c6_execute_task_failure noTools [] unknownToolT (Or.inl rfl)).2.2⟩
  rfl

/-! ## Trace lemmas for the execution model -/

theorem step_cast {tools : Tools} {W : Nat} {a b c : ExecState}
    (h : Step tools W a b) (e : b = c) : Step tools W a c := e ▸ h

/-- C2: on a permanently blocked graph (here the two-task cycle) the
scheduler loop of execute_dag never terminates: with nothing ready,
pending tasks left and no future in flight, the loop body is the bare
continue of line 220, so the start state is the only reachable state and
no reachable state is terminal — execute_dag never returns, against the
claim that the run terminates reporting the blocked tasks. -/
theorem c2_blocked_spins (tools : Tools) (W : Nat) :
    (∀ s : ExecState, reaches tools W cycInit s → s = cycInit) ∧
    ¬ Terminal cycInit := by
  constructor
  · intro s h
    induction h with
    | refl => rfl
    | tail h1 h2 ih =>
        rw [ih] at h2
        cases h2 with
        | eval_submit hp hr => exact absurd (by decide) hr
        | eval_done hp hr hpend => exact absurd hpend (by decide)
        | eval_drain hp hr hpend hf => exact absurd hf (by decide)
        | eval_spin hp hr hpend hf => rfl
        | start tid rest t hq hw ht =>
            simp [cycInit, initState] at hq
        | finish l1 l2 tid out hr =>
            simp [cycInit, initState] at hr
        | reap_one f1 f2 tid hp hf => exact absurd hp (by decide)
        | reap_drain f1 f2 tid hp hf => exact absurd hp (by decide)
  · intro ht
    exact absurd ht.1 (by decide)

/-- C2, witness: the non-termination theorem applied at the start state
itself. -/
theorem c2_witness : cycInit = cycInit ∧ ¬ Terminal cycInit :=
  ⟨(c2_blocked_spins noTools 3).1 cycInit Relation.ReflTransGen.refl,
   (c2_blocked_spins noTools 3).2⟩

/-- C1: the claim is the intended behaviour, but the code allows a
duplicate dispatch.  On the graph with two independent tasks t1, t2 and
one worker, the loop submits both, t1 runs and completes, and the loop
then re-evaluates readiness while t2 is still queued and still pending —
so t2 is submitted a second time and its handler runs twice.  The model
reaches a terminal state whose invocation log contains t2 twice. -/
theorem c1_duplicate_dispatch :
    ∃ s : ExecState, reaches echoTools 1 dupInit s ∧ Terminal s ∧
      s.invoked.count "t2" = 2 := by
  have h0 : reaches echoTools 1 dupInit dupInit := Relation.ReflTransGen.refl
  have h1 := h0.tail (Step.eval_submit dupInit rfl (by decide))
  have h2 := h1.tail (Step.start _ "t1" ["t2"] taskT1 (by decide) (by decide) (by decide))
  have h3 := h2.tail (Step.finish _ [] [] "t1" (Outcome.ok "x") (by decide))
  have h4 := h3.tail (Step.reap_one _ [] [] "t1" (by decide) (by decide))
  have h5 := h4.tail (Step.eval_submit _ (by decide) (by decide))
  have h6 := h5.tail (Step.start _ "t2" ["t2"] taskT2 (by decide) (by decide) (by decide))
  have h7 := h6.tail (Step.finish _ [] [] "t2" (Outcome.ok "y") (by decide))
  have h8 := h7.tail (Step.start _ "t2" []
    { taskT2 with status := Status.completed, result := some "y" }
    (by decide) (by decide) (by decide))
  have h9 := h8.tail (Step.finish _ [] [] "t2" (Outcome.ok "y") (by decide))
  have h10 := h9.tail (Step.reap_one _ [] ["t2"] "t2" (by decide) (by decide))
  have h11 := h10.tail (Step.eval_done _ (by decide) (by decide) (by decide))
  exact ⟨_, h11, ⟨by decide, by decide, by decide⟩, by decide⟩

/-- C8, counterexample: two complete runs of the same graph with the same
deterministic handlers whose final result stores differ.  Task B
references A without declaring the dependency, so both are ready at once;
if B is dequeued before A completes its input resolves to the bare
sigil, if after, to A's result. -/
theorem c8_counterexample :
    ∃ s1 s2 : ExecState,
      reaches echoTools 2 raceInit s1 ∧ Terminal s1 ∧
      reaches echoTools 2 raceInit s2 ∧ Terminal s2 ∧
      lookupStore "B" s1.results ≠ lookupStore "B" s2.results := by
  have h0 : reaches echoTools 2 raceInit raceInit := Relation.ReflTransGen.refl
  have h1 := h0.tail (Step.eval_submit raceInit rfl (by decide))
  have h2 := h1.tail (Step.start _ "A" ["B"] taskA (by decide) (by decide) (by decide))
  have h3 := h2.tail (Step.finish _ [] [] "A" (Outcome.ok "1") (by decide))
  have h4 := h3.tail (Step.start _ "B" [] taskB (by decide) (by decide) (by decide))
  have h5 := h4.tail (Step.finish _ [] [] "B" (Outcome.ok "1") (by decide))
  have h6 := h5.tail (Step.reap_one _ [] ["B"] "A" (by decide) (by decide))
  have h7 := h6.tail (Step.eval_done _ (by decide) (by decide) (by decide))
  have q1 := h0.tail (Step.eval_submit raceInit rfl (by decide))
  have q2 := q1.tail (Step.start _ "A" ["B"] taskA (by decide) (by decide) (by decide))
  have q3 := q2.tail (Step.start _ "B" [] taskB (by decide) (by decide) (by decide))
  have q4 := q3.tail
    (Step.finish _ [] [("B", Outcome.ok "$A")] "A" (Outcome.ok "1") (by decide))
  have q5 := q4.tail (Step.finish _ [] [] "B" (Outcome.ok "$A") (by decide))
  have q6 := q5.tail (Step.reap_one _ [] ["B"] "A" (by decide) (by decide))
  have q7 := q6.tail (Step.eval_done _ (by decide) (by decide) (by decide))
  exact ⟨_, _, h7, ⟨by decide, by decide, by decide⟩, q7,
    ⟨by decide, by decide, by decide⟩, by decide⟩

/-! ## Lemmas relating the resolver scan to the parsed segments -/

theorem dollar_not_word : isWordChar '$' = false := by decide

theorem findRefs_of_no_dollar_aux :
    ∀ (n : Nat) (s : List Char), s.length ≤ n → '$' ∉ s → findRefs s = [] := by
  intro n
  induction n with
  | zero =>
      intro s h _
      rw [List.eq_nil_of_length_eq_zero (Nat.le_zero.mp h)]
      rfl
  | succ n ih =>
      intro s h hd
      cases s with
      | nil => rfl
      | cons c rest =>
          by_cases hc : c = '$'
          · subst hc
            exact absurd (List.mem_cons_self _ _) hd
          · rw [findRefs_cons_not_dollar c rest hc]
            exact ih rest (by simpa using h)
              (fun hm => hd (List.mem_cons_of_mem c hm))

/-- An input with no sigil has no references. -/
theorem findRefs_of_no_dollar (s : List Char) (h : '$' ∉ s) : findRefs s = [] :=
  findRefs_of_no_dollar_aux s.length s le_rfl h

theorem flattenSegs_parseSegs_aux :
    ∀ (n : Nat) (s : List Char), s.length ≤ n →
      flattenSegs (parseSegs s) = s := by
  intro n
  induction n with
  | zero =>
      intro s h
      rw [List.eq_nil_of_length_eq_zero (Nat.le_zero.mp h)]
      rfl
  | succ n ih =>
      intro s h
      cases s with
      | nil => rfl
      | cons c rest =>
          have hr : rest.length ≤ n := by simpa using h
          by_cases hc : c = '$'
          · subst hc
            by_cases hrun : rest.takeWhile isWordChar = []
            · rw [parseSegs_dollar_no_run rest hrun]
              show '$' :: flattenSegs (parseSegs rest) = '$' :: rest
              rw [ih rest hr]
            · rw [parseSegs_dollar_run rest hrun]
              show '$' :: (rest.takeWhile isWordChar ++
                flattenSegs (parseSegs (rest.dropWhile isWordChar))) = '$' :: rest
              rw [ih _ (le_trans (length_dropWhile_le _ _) hr)]
              rw [List.takeWhile_append_dropWhile]
          · rw [parseSegs_cons_not_dollar c rest hc]
            show c :: flattenSegs (parseSegs rest) = c :: rest
            rw [ih rest hr]

/-- Parsing loses nothing: flattening the segments gives the input back. -/
theorem flattenSegs_parseSegs (s : List Char) :
    flattenSegs (parseSegs s) = s :=
  flattenSegs_parseSegs_aux s.length s le_rfl

theorem refsOf_parseSegs_aux :
    ∀ (n : Nat) (s : List Char), s.length ≤ n →
      refsOf (parseSegs s) = findRefs s := by
  intro n
  induction n with
  | zero =>
      intro s h
      rw [List.eq_nil_of_length_eq_zero (Nat.le_zero.mp h)]
      rfl
  | succ n ih =>
      intro s h
      cases s with
      | nil => rfl
      | cons c rest =>
          have hr : rest.length ≤ n := by simpa using h
          by_cases hc : c = '$'
          · subst hc
            by_cases hrun : rest.takeWhile isWordChar = []
            · rw [parseSegs_dollar_no_run rest hrun,
                findRefs_dollar_no_run rest hrun]
              show refsOf (parseSegs rest) = findRefs rest
              exact ih rest hr
            · rw [parseSegs_dollar_run rest hrun, findRefs_dollar_run rest hrun]
              show rest.takeWhile isWordChar ::
                  refsOf (parseSegs (rest.dropWhile isWordChar)) = _
              rw [ih _ (le_trans (length_dropWhile_le _ _) hr)]
          · rw [parseSegs_cons_not_dollar c rest hc,
              findRefs_cons_not_dollar c rest hc]
            show refsOf (parseSegs rest) = findRefs rest
            exact ih rest hr

/-- The reference ids of the parsed input are exactly the matches of the
findall scan. -/
theorem refsOf_parseSegs (s : List Char) :
    refsOf (parseSegs s) = findRefs s :=
  refsOf_parseSegs_aux s.length s le_rfl

theorem findRefs_elem_spec_aux :
    ∀ (n : Nat) (s : List Char), s.length ≤ n →
      ∀ m ∈ findRefs s, m ≠ [] ∧ ∀ c ∈ m, isWordChar c = true := by
  intro n
  induction n with
  | zero =>
      intro s h
      rw [List.eq_nil_of_length_eq_zero (Nat.le_zero.mp h)]
      intro m hm
      cases hm
  | succ n ih =>
      intro s h
      cases s with
      | nil => intro m hm; cases hm
      | cons c rest =>
          have hr : rest.length ≤ n := by simpa using h
          by_cases hc : c = '$'
          · subst hc
            by_cases hrun : rest.takeWhile isWordChar = []
            · rw [findRefs_dollar_no_run rest hrun]
              exact ih rest hr
            · rw [findRefs_dollar_run rest hrun]
              intro m hm
              rcases List.mem_cons.mp hm with he | hm2
              · subst he
                exact ⟨hrun, fun c hcm => List.mem_takeWhile_imp hcm⟩
              · exact ih _ (le_trans (length_dropWhile_le _ _) hr) m hm2
          · rw [findRefs_cons_not_dollar c rest hc]
            exact ih rest hr

/-- Every match of the scan is a nonempty run of word characters. -/
theorem findRefs_elem_spec (s : List Char) :
    ∀ m ∈ findRefs s, m ≠ [] ∧ ∀ c ∈ m, isWordChar c = true :=
  findRefs_elem_spec_aux s.length s le_rfl

theorem ref_mem_refsOf (segs : List Seg) (m : List Char)
    (h : Seg.ref m ∈ segs) : m ∈ refsOf segs := by
  induction segs with
  | nil => cases h
  | cons seg rest ih =>
      rcases List.mem_cons.mp h with he | hm
      · rw [← he]
        exact List.mem_cons_self _ _
      · cases seg with
        | lit l => exact ih hm
        | ref m1 => exact List.mem_cons_of_mem _ (ih hm)

/-- str.replace with a sigil-headed needle walks over a sigil-free chunk
unchanged. -/
theorem replaceAll_append_left (m0 v : List Char) (a : List Char) :
    ∀ b : List Char, '$' ∉ a →
      replaceAll ('$' :: m0) v (a ++ b) = a ++ replaceAll ('$' :: m0) v b := by
  induction a with
  | nil => intro b _; rfl
  | cons c a ih =>
      intro b ha
      have hc : ('$' : Char) ≠ c := by
        intro e
        exact ha (e ▸ List.mem_cons_self c a)
      have hnp : ¬ ('$' :: m0).isPrefixOf (c :: (a ++ b)) = true := by
        simp [List.isPrefixOf, hc]
      rw [List.cons_append,
        replaceAll_neg _ _ _ _ (List.cons_ne_nil _ _) hnp,
        ih b (fun hm => ha (List.mem_cons_of_mem c hm))]
      rfl

theorem prefix_shorter (a b c : List Char) (h : a <+: b ++ c)
    (hl : a.length ≤ b.length) : a <+: b := by
  have h1 : a = (b ++ c).take a.length := List.prefix_iff_eq_take.mp h
  rw [List.take_append_of_le_length hl] at h1
  rw [h1]
  exact List.take_prefix _ _

theorem prefix_longer (a b c : List Char) (h : a <+: b ++ c)
    (hl : b.length ≤ a.length) : b <+: a := by
  have h1 : a = (b ++ c).take a.length := List.prefix_iff_eq_take.mp h
  rw [List.take_append_eq_append_take, List.take_of_length_le hl] at h1
  exact ⟨c.take (a.length - b.length), h1.symm⟩

/-- One pass of str.replace over the flattened segments substitutes
exactly the references carrying the replaced id, provided the reference
family is prefix-free and the replacement is sigil-free. -/
theorem replaceAll_flattenSegs (R : List (List Char)) (hpf : PrefFree R)
    (m0 : List Char) (hm0 : m0 ∈ R) (v : List Char) :
    ∀ segs : List Seg, SegsOK R segs →
      replaceAll ('$' :: m0) v (flattenSegs segs) =
        flattenSegs (segs.map (substOne m0 v)) := by
  intro segs
  induction segs with
  | nil => intro _; exact replaceAll_nil _ _
  | cons seg rest ih =>
      intro hOK
      have hOKrest : SegsOK R rest :=
        ⟨fun l hl => hOK.1 l (List.mem_cons_of_mem _ hl),
         fun m hm => hOK.2 m (List.mem_cons_of_mem _ hm)⟩
      cases seg with
      | lit l =>
          have hl : '$' ∉ l := hOK.1 l (List.mem_cons_self _ _)
          show replaceAll ('$' :: m0) v (l ++ flattenSegs rest) =
            l ++ flattenSegs (rest.map (substOne m0 v))
          rw [replaceAll_append_left m0 v l _ hl, ih hOKrest]
      | ref m =>
          rcases hOK.2 m (List.mem_cons_self _ _) with ⟨hmR, hmne, hmw⟩
          have hmnd : '$' ∉ m := by
            intro hin
            have hw := hmw '$' hin
            rw [dollar_not_word] at hw
            cases hw
          by_cases he : m = m0
          · subst he
            show replaceAll ('$' :: m) v ('$' :: (m ++ flattenSegs rest)) = _
            have hpre : ('$' :: m).isPrefixOf ('$' :: (m ++ flattenSegs rest)) = true := by
              rw [List.isPrefixOf_iff_prefix]
              exact ⟨flattenSegs rest, by simp⟩
            rw [replaceAll_pos _ _ _ _ (List.cons_ne_nil _ _) hpre]
            have hdrop : (('$' :: (m ++ flattenSegs rest)).drop ('$' :: m).length) =
                flattenSegs rest := by
              have e2 : '$' :: (m ++ flattenSegs rest) =
                  ('$' :: m) ++ flattenSegs rest := by simp
              rw [e2, List.drop_left]
            rw [hdrop, ih hOKrest]
            simp [substOne, flattenSegs]
          · show replaceAll ('$' :: m0) v ('$' :: (m ++ flattenSegs rest)) = _
            have hnp : ¬ ('$' :: m0).isPrefixOf ('$' :: (m ++ flattenSegs rest)) = true := by
              intro hp
              rw [List.isPrefixOf_iff_prefix] at hp
              have hp2 : m0 <+: m ++ flattenSegs rest := by
                rcases hp with ⟨t, ht⟩
                rw [List.cons_append] at ht
                injection ht with _ ht2
                exact ⟨t, ht2⟩
              rcases Nat.le_total m0.length m.length with hle | hle
              · have hpm : m0 <+: m := prefix_shorter m0 m _ hp2 hle
                by_cases heq : m0 = m
                · exact he heq.symm
                · have hf := hpf m0 hm0 m hmR heq
                  have hT := List.isPrefixOf_iff_prefix.mpr hpm
                  rw [hf] at hT
                  cases hT
              · have hpm : m <+: m0 := prefix_longer m0 m _ hp2 hle
                have hf := hpf m hmR m0 hm0 he
                have hT := List.isPrefixOf_iff_prefix.mpr hpm
                rw [hf] at hT
                cases hT
            rw [replaceAll_neg _ _ _ _ (List.cons_ne_nil _ _) hnp]
            rw [replaceAll_append_left m0 v m _ hmnd, ih hOKrest]
            simp [substOne, he, flattenSegs]

theorem applyMs_lit (store : Store) (ms : List (List Char)) (l : List Char) :
    applyMs store ms (Seg.lit l) = Seg.lit l := by
  induction ms with
  | nil => rfl
  | cons m ms ih =>
      cases hl : lookupStore (String.mk m) store with
      | some v => simp [applyMs, hl, substOne, ih]
      | none => simp [applyMs, hl, ih]

theorem applyMs_ref (store : Store) (ms : List (List Char)) (m : List Char)
    (v : String) (hv : lookupStore (String.mk m) store = some v) :
    m ∈ ms → applyMs store ms (Seg.ref m) = Seg.lit v.data := by
  induction ms with
  | nil => intro hm; cases hm
  | cons m1 ms ih =>
      intro hm
      by_cases he : m1 = m
      · subst he
        simp [applyMs, hv, substOne, applyMs_lit]
      · have hm2 : m ∈ ms := by
          rcases List.mem_cons.mp hm with h | h
          · exact absurd h.symm he
          · exact h
        have hme : ¬ m = m1 := fun h => he (Eq.symm h)
        cases hl : lookupStore (String.mk m1) store with
        | some v1 =>
            simp only [applyMs, hl]
            rw [show substOne m1 v1.data (Seg.ref m) = Seg.ref m by
              simp [substOne, hme]]
            exact ih hm2
        | none =>
            simp only [applyMs, hl]
            exact ih hm2

theorem SegsOK_map_substOne (R : List (List Char)) (segs : List Seg)
    (hOK : SegsOK R segs) (m0 v : List Char) (hv : '$' ∉ v) :
    SegsOK R (segs.map (substOne m0 v)) := by
  constructor
  · intro l hl
    rcases List.mem_map.mp hl with ⟨seg, hseg, he⟩
    cases seg with
    | lit l1 =>
        have he2 : l1 = l := by simpa [substOne] using he
        rw [← he2]
        exact hOK.1 l1 hseg
    | ref m =>
        by_cases h : m = m0
        · rw [show substOne m0 v (Seg.ref m) = Seg.lit v by simp [substOne, h]] at he
          injection he with he2
          rw [← he2]
          exact hv
        · rw [show substOne m0 v (Seg.ref m) = Seg.ref m by simp [substOne, h]] at he
          cases he
  · intro m hm
    rcases List.mem_map.mp hm with ⟨seg, hseg, he⟩
    cases seg with
    | lit l1 => simp [substOne] at he
    | ref m1 =>
        by_cases h : m1 = m0
        · rw [show substOne m0 v (Seg.ref m1) = Seg.lit v by simp [substOne, h]] at he
          cases he
        · rw [show substOne m0 v (Seg.ref m1) = Seg.ref m1 by simp [substOne, h]] at he
          injection he with he2
          rw [← he2]
          exact hOK.2 m1 hseg

theorem lookupStore_mem (k : String) (s : Store) (v : String)
    (h : lookupStore k s = some v) : (k, v) ∈ s := by
  induction s with
  | nil => cases h
  | cons p rest ih =>
      cases p with
      | mk k1 v1 =>
          unfold lookupStore at h
          by_cases he : k1 = k
          · rw [if_pos he] at h
            injection h with h2
            rw [← he, ← h2]
            exact List.mem_cons_self _ _
          · rw [if_neg he] at h
            exact List.mem_cons_of_mem _ (ih h)

/-- The sequential replacement loop of lines 150-153, run over the
flattened segments, acts segment by segment. -/
theorem resolveFold_flattenSegs (store : Store) (R : List (List Char))
    (hpf : PrefFree R)
    (hstore : ∀ p ∈ store, '$' ∉ (Prod.snd p).data) :
    ∀ (ms : List (List Char)) (segs : List Seg),
      (∀ m ∈ ms, m ∈ R) → SegsOK R segs →
      ms.foldl (fun input_text m =>
          match lookupStore (String.mk m) store with
          | some v => replaceAll ('$' :: m) v.data input_text
          | none => input_text) (flattenSegs segs)
      = flattenSegs (segs.map (applyMs store ms)) := by
  intro ms
  induction ms with
  | nil =>
      intro segs _ _
      simp only [List.foldl_nil]
      congr 1
      have he : segs.map (applyMs store []) = segs.map id :=
        List.map_congr_left (fun seg _ => rfl)
      rw [he, List.map_id]
  | cons m ms ih =>
      intro segs hms hOK
      have htail : ∀ x ∈ ms, x ∈ R := fun x hx => hms x (List.mem_cons_of_mem m hx)
      cases hl : lookupStore (String.mk m) store with
      | none =>
          simp only [List.foldl_cons, hl]
          rw [ih segs htail hOK]
          congr 1
          apply List.map_congr_left
          intro seg _
          show applyMs store ms seg = applyMs store (m :: ms) seg
          simp [applyMs, hl]
      | some v =>
          have hmR : m ∈ R := hms m (List.mem_cons_self _ _)
          have hvnd : '$' ∉ v.data := hstore _ (lookupStore_mem _ _ _ hl)
          simp only [List.foldl_cons, hl]
          rw [replaceAll_flattenSegs R hpf m hmR v.data segs hOK]
          rw [ih (segs.map (substOne m v.data)) htail
            (SegsOK_map_substOne R segs hOK m v.data hvnd)]
          rw [List.map_map]
          congr 1
          apply List.map_congr_left
          intro seg _
          show applyMs store ms (substOne m v.data seg) = applyMs store (m :: ms) seg
          simp [applyMs, hl]

theorem map_applyMs_eq_substSeg (store : Store) (segs : List Seg)
    (ms : List (List Char))
    (hcover : ∀ m, Seg.ref m ∈ segs → m ∈ ms)
    (hsome : ∀ m, Seg.ref m ∈ segs →
      (lookupStore (String.mk m) store).isSome = true) :
    segs.map (applyMs store ms) = segs.map (substSeg store) := by
  apply List.map_congr_left
  intro seg hseg
  cases seg with
  | lit l => rw [applyMs_lit]; rfl
  | ref m =>
      rcases Option.isSome_iff_exists.mp (hsome m hseg) with ⟨v, hv⟩
      rw [applyMs_ref store ms m v hv (hcover m hseg)]
      simp [substSeg, hv]

theorem no_dollar_flatten_subst (store : Store) (segs : List Seg)
    (hlits : ∀ l, Seg.lit l ∈ segs → '$' ∉ l)
    (hstore : ∀ p ∈ store, '$' ∉ (Prod.snd p).data)
    (hsome : ∀ m, Seg.ref m ∈ segs →
      (lookupStore (String.mk m) store).isSome = true) :
    '$' ∉ flattenSegs (segs.map (substSeg store)) := by
  induction segs with
  | nil => simp [flattenSegs]
  | cons seg rest ih =>
      have ihr := ih (fun l hl => hlits l (List.mem_cons_of_mem _ hl))
        (fun m hm => hsome m (List.mem_cons_of_mem _ hm))
      cases seg with
      | lit l =>
          have hl : '$' ∉ l := hlits l (List.mem_cons_self _ _)
          show '$' ∉ l ++ flattenSegs (rest.map (substSeg store))
          intro hmem
          rcases List.mem_append.mp hmem with h | h
          · exact hl h
          · exact ihr h
      | ref m =>
          rcases Option.isSome_iff_exists.mp
            (hsome m (List.mem_cons_self _ _)) with ⟨v, hv⟩
          have hvnd : '$' ∉ v.data := hstore _ (lookupStore_mem _ _ _ hv)
          show '$' ∉ flattenSegs (substSeg store (Seg.ref m) :: rest.map (substSeg store))
          rw [show substSeg store (Seg.ref m) = Seg.lit v.data by simp [substSeg, hv]]
          show '$' ∉ v.data ++ flattenSegs (rest.map (substSeg store))
          intro hmem
          rcases List.mem_append.mp hmem with h | h
          · exact hvnd h
          · exact ihr h

/-- C5, counterexample: with store entries for both A and AB, the input
with the two distinct references A and AB is not fully substituted — the
sequential str.replace pass for A corrupts the occurrence of AB, so the
output differs from the single-pass simultaneous substitution the claim
describes. -/
theorem c5_counterexample :
    lookupStore "A" [("A", "1"), ("AB", "2")] = some "1" ∧
    lookupStore "AB" [("A", "1"), ("AB", "2")] = some "2" ∧
    resolve_dependencies [("A", "1"), ("AB", "2")] prefixT = "1 1B" ∧
    specResolve [("A", "1"), ("AB", "2")] "$A $AB" = "1 2" ∧
    ("1 1B" : String) ≠ "1 2" := by
  refine ⟨rfl, rfl, by decide, by decide, by decide⟩

/-- C5, amended: provided the stored values are sigil-free, the
referenced ids are mutually prefix-free and every sigil in the raw input
begins a reference, a single resolve_dependencies call equals the
spec's one-pass simultaneous substitution of every occurrence of every
reference, and its output carries no reference at all. -/
theorem c5_amended (store : Store) (task : Task)
    (h1 : ∀ m ∈ findRefs task.tool_input.data,
      (lookupStore (String.mk m) store).isSome = true)
    (h2 : ∀ m1 ∈ findRefs task.tool_input.data,
      ∀ m2 ∈ findRefs task.tool_input.data, m1 ≠ m2 → m1.isPrefixOf m2 = false)
    (h3 : ∀ p ∈ store, '$' ∉ (Prod.snd p).data)
    (h4 : ∀ seg ∈ parseSegs task.tool_input.data, segNoBareDollar seg = true) :
    resolve_dependencies store task = specResolve store task.tool_input ∧
    findRefs (resolve_dependencies store task).data = [] := by
  have hflat := flattenSegs_parseSegs task.tool_input.data
  have hrefs := refsOf_parseSegs task.tool_input.data
  have hspec := findRefs_elem_spec task.tool_input.data
  have hcover : ∀ m, Seg.ref m ∈ parseSegs task.tool_input.data →
      m ∈ findRefs task.tool_input.data := by
    intro m hm
    rw [← hrefs]
    exact ref_mem_refsOf _ _ hm
  have hOK : SegsOK (findRefs task.tool_input.data)
      (parseSegs task.tool_input.data) := by
    constructor
    · intro l hl
      have hseg := h4 (Seg.lit l) hl
      simp only [segNoBareDollar] at hseg
      intro hmem
      rw [Bool.not_eq_true'] at hseg
      rw [show l.contains '$' = true by simpa using hmem] at hseg
      cases hseg
    · intro m hm
      have hmem := hcover m hm
      exact ⟨hmem, (hspec m hmem).1, (hspec m hmem).2⟩
  have hsome : ∀ m, Seg.ref m ∈ parseSegs task.tool_input.data →
      (lookupStore (String.mk m) store).isSome = true :=
    fun m hm => h1 m (hcover m hm)
  have key := resolveFold_flattenSegs store (findRefs task.tool_input.data) h2 h3
    (findRefs task.tool_input.data) (parseSegs task.tool_input.data)
    (fun m hm => hm) hOK
  rw [hflat] at key
  rw [map_applyMs_eq_substSeg store _ _ hcover hsome] at key
  constructor
  · unfold resolve_dependencies specResolve
    rw [key]
  · unfold resolve_dependencies
    rw [key]
    apply findRefs_of_no_dollar
    exact no_dollar_flatten_subst store _ (fun l hl => hOK.1 l hl) h3 hsome

/-- C5, witness: scenario D of the spec — two distinct references both
substituted in one call, with no remaining sigils. -/
theorem c5_amended_witness :
    resolve_dependencies [("A", "1"), ("B", "2")] scenDT =
      specResolve [("A", "1"), ("B", "2")] "$A and $B" ∧
    resolve_dependencies [("A", "1"), ("B", "2")] scenDT = "1 and 2" ∧
    findRefs (resolve_dependencies [("A", "1"), ("B", "2")] scenDT).data = [] :=
  ⟨(c5_amended [("A", "1"), ("B", "2")] scenDT
      (by decide) (by decide) (by decide) (by decide)).1,
   by decide,
   (c5_amended [("A", "1"), ("B", "2")] scenDT
      (by decide) (by decide) (by decide) (by decide)).2⟩

/-! ## Store and skeleton lemmas for the determinism analysis -/

theorem lookupStore_insertStore_self (k v : String) (s : Store) :
    lookupStore k (insertStore k v s) = some v := by
  induction s with
  | nil => simp [insertStore, lookupStore]
  | cons p rest ih =>
      cases p with
      | mk k1 v1 =>
          by_cases h : k1 = k
          · simp [insertStore, h, lookupStore]
          · simp [insertStore, h, lookupStore, ih]

theorem lookupStore_insertStore_ne (k k1 v : String) (s : Store) (h : k1 ≠ k) :
    lookupStore k (insertStore k1 v s) = lookupStore k s := by
  induction s with
  | nil => simp [insertStore, lookupStore, h]
  | cons p rest ih =>
      cases p with
      | mk k2 v2 =>
          by_cases h2 : k2 = k1
          · rw [show insertStore k1 v ((k2, v2) :: rest) = (k1, v) :: rest by
              simp [insertStore, h2]]
            rw [show lookupStore k ((k1, v) :: rest) = lookupStore k rest by
              simp [lookupStore, h]]
            rw [show lookupStore k ((k2, v2) :: rest) = lookupStore k rest by
              simp [lookupStore, show k2 ≠ k from fun e => h (h2.symm.trans e)]]
          · rw [show insertStore k1 v ((k2, v2) :: rest) =
                (k2, v2) :: insertStore k1 v rest by simp [insertStore, h2]]
            unfold lookupStore
            by_cases h3 : k2 = k
            · rw [if_pos h3, if_pos h3]
            · rw [if_neg h3, if_neg h3]
              exact ih

theorem mem_insertStore (k v : String) (s : Store) (p : String × String)
    (h : p ∈ insertStore k v s) : p = (k, v) ∨ p ∈ s := by
  induction s with
  | nil => simpa [insertStore] using h
  | cons q rest ih =>
      cases q with
      | mk k1 v1 =>
          by_cases h1 : k1 = k
          · rw [show insertStore k v ((k1, v1) :: rest) = (k, v) :: rest by
              simp [insertStore, h1]] at h
            rcases List.mem_cons.mp h with he | hm
            · exact Or.inl he
            · exact Or.inr (List.mem_cons_of_mem _ hm)
          · rw [show insertStore k v ((k1, v1) :: rest) =
                (k1, v1) :: insertStore k v rest by simp [insertStore, h1]] at h
            rcases List.mem_cons.mp h with he | hm
            · exact Or.inr (he ▸ List.mem_cons_self _ _)
            · rcases ih hm with he2 | hm2
              · exact Or.inl he2
              · exact Or.inr (List.mem_cons_of_mem _ hm2)

theorem isSome_of_extends (a b : Store) (k : String) (hext : storeExtends a b)
    (h : (lookupStore k a).isSome = true) : (lookupStore k b).isSome = true := by
  rcases Option.isSome_iff_exists.mp h with ⟨v, hv⟩
  rw [hext k v hv]
  rfl

theorem depsEntriesPresent_mono (a b : Store) (t : Task)
    (hext : storeExtends a b) (h : depsEntriesPresent a t) :
    depsEntriesPresent b t :=
  fun d hd => isSome_of_extends a b d hext (h d hd)

theorem resolveFold_congr (A B : Store) :
    ∀ ms : List (List Char),
      (∀ m ∈ ms, lookupStore (String.mk m) A = lookupStore (String.mk m) B) →
      ∀ text : List Char,
      ms.foldl (fun input_text m =>
          match lookupStore (String.mk m) A with
          | some v => replaceAll ('$' :: m) v.data input_text
          | none => input_text) text =
      ms.foldl (fun input_text m =>
          match lookupStore (String.mk m) B with
          | some v => replaceAll ('$' :: m) v.data input_text
          | none => input_text) text := by
  intro ms
  induction ms with
  | nil => intro _ text; rfl
  | cons m rest ih =>
      intro hh text
      have hm : lookupStore (String.mk m) A = lookupStore (String.mk m) B :=
        hh m (List.mem_cons_self _ _)
      have htail := fun x hx => hh x (List.mem_cons_of_mem m hx)
      cases hl : lookupStore (String.mk m) A with
      | some v =>
          have hlB : lookupStore (String.mk m) B = some v := hm.symm.trans hl
          simp only [List.foldl_cons, hl, hlB]
          exact ih htail _
      | none =>
          have hlB : lookupStore (String.mk m) B = none := hm.symm.trans hl
          simp only [List.foldl_cons, hl, hlB]
          exact ih htail _

/-- Resolution only depends on the store entries of the input's
references. -/
theorem resolve_congr (A B : Store) (t : Task)
    (h : ∀ m ∈ findRefs t.tool_input.data,
      lookupStore (String.mk m) A = lookupStore (String.mk m) B) :
    resolve_dependencies A t = resolve_dependencies B t := by
  unfold resolve_dependencies
  rw [resolveFold_congr A B (findRefs t.tool_input.data) h t.tool_input.data]

/-- Once every reference of a task has its entry, growing the store does
not change the task's resolved input. -/
theorem resolve_stable (A B : Store) (t : Task) (hext : storeExtends A B)
    (hrefs : ∀ m ∈ findRefs t.tool_input.data, String.mk m ∈ t.dependencies)
    (hdeps : depsEntriesPresent A t) :
    resolve_dependencies A t = resolve_dependencies B t := by
  apply resolve_congr
  intro m hm
  rcases Option.isSome_iff_exists.mp (hdeps (String.mk m) (hrefs m hm)) with ⟨v, hv⟩
  rw [hv, hext _ _ hv]

theorem resolve_eq_of_input (res : Store) (t g : Task)
    (h : t.tool_input = g.tool_input) :
    resolve_dependencies res t = resolve_dependencies res g := by
  unfold resolve_dependencies
  rw [h]

theorem ids_eq_of_sameSkeleton (a b : List Task) (h : sameSkeleton a b) :
    a.map Task.task_id = b.map Task.task_id := by
  have key : ∀ l : List Task, l.map Task.task_id = (l.map skel).map Prod.fst := by
    intro l
    rw [List.map_map]
    rfl
  rw [key a, key b, h]

theorem skel_transfer (G ts : List Task) (h : sameSkeleton G ts) (u : Task)
    (hu : u ∈ ts) :
    ∃ g ∈ G, g.task_id = u.task_id ∧ g.tool_name = u.tool_name ∧
      g.tool_input = u.tool_input ∧ g.dependencies = u.dependencies := by
  have h1 : skel u ∈ G.map skel := by
    rw [h]
    exact List.mem_map_of_mem skel hu
  rcases List.mem_map.mp h1 with ⟨g, hg, he⟩
  have he2 : g.task_id = u.task_id ∧ g.tool_name = u.tool_name ∧
      g.tool_input = u.tool_input ∧ g.dependencies = u.dependencies := by
    simpa [skel, Prod.ext_iff] using he
  exact ⟨g, hg, he2⟩

theorem skel_transfer_rev (G ts : List Task) (h : sameSkeleton G ts) (g : Task)
    (hg : g ∈ G) :
    ∃ u ∈ ts, u.task_id = g.task_id ∧ u.tool_name = g.tool_name ∧
      u.tool_input = g.tool_input ∧ u.dependencies = g.dependencies :=
  skel_transfer ts G h.symm g hg

theorem unique_by_id (G : List Task) (h : (G.map Task.task_id).Nodup)
    (t1 t2 : Task) (h1 : t1 ∈ G) (h2 : t2 ∈ G)
    (he : t1.task_id = t2.task_id) : t1 = t2 :=
  List.inj_on_of_nodup_map h h1 h2 he

theorem map_skel_setStatus (ts : List Task) (tid : String) (st : Status) :
    (setStatus ts tid st).map skel = ts.map skel := by
  unfold setStatus
  rw [List.map_map]
  apply List.map_congr_left
  intro t _
  show skel (if t.task_id = tid then { t with status := st } else t) = skel t
  by_cases h : t.task_id = tid
  · rw [if_pos h]
    rfl
  · rw [if_neg h]

theorem map_skel_applyOutcome (ts : List Task) (tid : String) (out : Outcome) :
    (applyOutcome ts tid out).map skel = ts.map skel := by
  unfold applyOutcome
  rw [List.map_map]
  apply List.map_congr_left
  intro t _
  by_cases h : t.task_id = tid
  · cases out <;> simp [h, skel]
  · simp [h]

theorem mem_setStatus (ts : List Task) (tid : String) (st : Status) (u : Task)
    (h : u ∈ setStatus ts tid st) :
    ∃ t ∈ ts, (t.task_id = tid ∧ u = { t with status := st }) ∨
      (¬ t.task_id = tid ∧ u = t) := by
  rcases List.mem_map.mp h with ⟨t, ht, he⟩
  refine ⟨t, ht, ?_⟩
  by_cases hc : t.task_id = tid
  · exact Or.inl ⟨hc, by rw [← he, if_pos hc]⟩
  · exact Or.inr ⟨hc, by rw [← he, if_neg hc]⟩

theorem mem_applyOutcome (ts : List Task) (tid : String) (out : Outcome)
    (u : Task) (h : u ∈ applyOutcome ts tid out) :
    ∃ t ∈ ts,
      (t.task_id = tid ∧
        ((∃ r, out = Outcome.ok r ∧
            u = { t with status := Status.completed, result := some r }) ∨
         (∃ msg, out = Outcome.failed msg ∧
            u = { t with status := Status.failed, result := some msg }))) ∨
      (¬ t.task_id = tid ∧ u = t) := by
  rcases List.mem_map.mp h with ⟨t, ht, he⟩
  refine ⟨t, ht, ?_⟩
  by_cases hc : t.task_id = tid
  · refine Or.inl ⟨hc, ?_⟩
    cases out with
    | ok r => exact Or.inl ⟨r, rfl, by rw [← he, if_pos hc]⟩
    | failed msg => exact Or.inr ⟨msg, rfl, by rw [← he, if_pos hc]⟩
  · exact Or.inr ⟨hc, by rw [← he, if_neg hc]⟩

theorem toolOutcome_ok (tools : Tools) (n i r : String)
    (h : (toolOutcome tools n i).1 = Outcome.ok r) :
    ∃ f, tools n = some f ∧ f i = Except.ok r := by
  cases hf : tools n with
  | none =>
      rw [show toolOutcome tools n i = (Outcome.failed ("未知工具: " ++ n), false)
        from by simp [toolOutcome, hf]] at h
      simp at h
  | some f =>
      cases hfi : f i with
      | ok r2 =>
          rw [show toolOutcome tools n i = (Outcome.ok r2, true)
            from by simp [toolOutcome, hf, hfi]] at h
          simp at h
          exact ⟨f, rfl, by rw [hfi, h]⟩
      | error e =>
          rw [show toolOutcome tools n i =
              (Outcome.failed ("执行错误: " ++ e), true)
            from by simp [toolOutcome, hf, hfi]] at h
          simp at h

theorem toolOutcome_failed (tools : Tools) (n i msg : String)
    (h : (toolOutcome tools n i).1 = Outcome.failed msg) :
    tools n = none ∨ ∃ f e, tools n = some f ∧ f i = Except.error e := by
  cases hf : tools n with
  | none => exact Or.inl rfl
  | some f =>
      cases hfi : f i with
      | ok r2 =>
          rw [show toolOutcome tools n i = (Outcome.ok r2, true)
            from by simp [toolOutcome, hf, hfi]] at h
          simp at h
      | error e => exact Or.inr ⟨f, e, rfl, hfi⟩

theorem pendingRemain_false (s : ExecState) (h : pendingRemain s = false) :
    ∀ t ∈ s.tasks, t.status ≠ Status.pending ∧ t.status ≠ Status.running := by
  unfold pendingRemain at h
  rw [List.any_eq_false] at h
  intro t ht
  have h2 := h t ht
  constructor <;> intro he <;> rw [he] at h2 <;> simp at h2

theorem lookupTask_isSome_of_mem_ids (ts : List Task) (tid : String)
    (h : tid ∈ ts.map Task.task_id) : (lookupTask ts tid).isSome = true := by
  rcases List.mem_map.mp h with ⟨t, ht, he⟩
  unfold lookupTask
  cases hf : ts.find? (fun t => t.task_id = tid) with
  | some u => rfl
  | none =>
      have h2 := List.find?_eq_none.mp hf t ht
      simp [he] at h2

theorem lookupTask_id (ts : List Task) (tid : String) (t : Task)
    (h : lookupTask ts tid = some t) : t.task_id = tid := by
  simpa using List.find?_some h

theorem lookupTask_mem (ts : List Task) (tid : String) (t : Task)
    (h : lookupTask ts tid = some t) : t ∈ ts :=
  List.mem_of_find?_eq_some h

/-! ## Invariant preservation along the execution model -/

theorem inv_init (G : List Task) (tools : Tools) (hG : GoodGraph G) :
    ExecInv G tools (initState G) := by
  refine ⟨rfl, ?_, ?_, ?_, ?_, ?_, ?_, ?_, ?_⟩
  · intro p hp
    cases hp
  · intro t ht hc
    rw [hG.pend t ht] at hc
    cases hc
  · intro t ht hc
    rw [hG.pend t ht] at hc
    cases hc
  · intro t ht hc
    exact absurd (hG.pend t ht) hc
  · intro p hp
    cases hp
  · intro tid htid
    cases htid
  · intro t ht hc
    rw [hG.pend t ht] at hc
    cases hc
  · intro hph
    cases hph

theorem inv_step (G : List Task) (tools : Tools) (W : Nat) (hG : GoodGraph G)
    (s s2 : ExecState) (hinv : ExecInv G tools s) (hstep : Step tools W s s2) :
    ExecInv G tools s2 := by
  cases hstep with
  | eval_submit hp hr =>
      refine ⟨hinv.skel_eq, hinv.store_dom, hinv.completed_entry, hinv.failed_coh,
        hinv.started_deps, hinv.run_coh, ?_, hinv.running_has_inv, ?_⟩
      · intro tid htid
        rcases List.mem_append.mp htid with hold | hnew
        · exact hinv.queue_coh tid hold
        · rcases List.mem_map.mp hnew with ⟨u, hu, hid⟩
          rcases (mem_get_ready_tasks s.tasks u).mp hu with ⟨humem, _, hudeps⟩
          rcases skel_transfer G s.tasks hinv.skel_eq u humem with
            ⟨g, hgG, hgid, _, _, hgdeps⟩
          refine ⟨g, hgG, by rw [hgid, hid], ?_⟩
          intro d hd
          have hdu : d ∈ u.dependencies := by rw [← hgdeps]; exact hd
          rcases hG.depsIn g hgG d hd with ⟨u2, hu2G, hu2id⟩
          have hdid : d ∈ s.tasks.map Task.task_id := by
            rw [← ids_eq_of_sameSkeleton G s.tasks hinv.skel_eq]
            exact List.mem_map.mpr ⟨u2, hu2G, hu2id⟩
          rcases Option.isSome_iff_exists.mp
            (lookupTask_isSome_of_mem_ids _ _ hdid) with ⟨w, hw⟩
          have hwc : w.status = Status.completed := hudeps d hdu w hw
          have hwl := hinv.completed_entry w (lookupTask_mem _ _ _ hw) hwc
          rw [lookupTask_id _ _ _ hw] at hwl
          exact hwl
      · intro hph
        cases hph
  | eval_done hp hr hpend =>
      refine ⟨hinv.skel_eq, hinv.store_dom, hinv.completed_entry, hinv.failed_coh,
        hinv.started_deps, hinv.run_coh, hinv.queue_coh, hinv.running_has_inv, ?_⟩
      intro _ t ht
      exact (pendingRemain_false s hpend t ht).1
  | eval_drain hp hr hpend hf =>
      refine ⟨hinv.skel_eq, hinv.store_dom, hinv.completed_entry, hinv.failed_coh,
        hinv.started_deps, hinv.run_coh, hinv.queue_coh, hinv.running_has_inv, ?_⟩
      intro hph
      cases hph
  | eval_spin hp hr hpend hf => exact hinv
  | start tid rest t hq hw ht =>
      have htmem : t ∈ s.tasks := lookupTask_mem _ _ _ ht
      have htid : t.task_id = tid := lookupTask_id _ _ _ ht
      rcases hinv.queue_coh tid (by rw [hq]; exact List.mem_cons_self _ _) with
        ⟨g0, hg0G, hg0id, hg0deps⟩
      rcases skel_transfer G s.tasks hinv.skel_eq t htmem with
        ⟨g1, hg1G, hg1id, hg1nm, hg1in, hg1dep⟩
      have hgg : g1 = g0 :=
        unique_by_id G hG.nodup g1 g0 hg1G hg0G (by rw [hg1id, htid, hg0id])
      have hg1deps : depsEntriesPresent s.results g1 := by
        rw [hgg]
        exact hg0deps
      have hdeps_of_tid : ∀ t1 ∈ s.tasks, t1.task_id = tid →
          depsEntriesPresent s.results t1 := by
        intro t1 ht1 hid1
        rcases skel_transfer G s.tasks hinv.skel_eq t1 ht1 with
          ⟨g2, hg2G, hg2id, _, _, hg2dep⟩
        have hg21 : g2 = g1 := unique_by_id G hG.nodup g2 g1 hg2G hg1G
          (by rw [hg2id, hid1, hg1id, htid])
        intro d hd
        apply hg1deps
        rw [← hg21, hg2dep]
        exact hd
      have hskel2 : sameSkeleton G (setStatus s.tasks tid Status.running) := by
        unfold sameSkeleton
        rw [map_skel_setStatus]
        exact hinv.skel_eq
      refine ⟨hskel2, hinv.store_dom, ?_, ?_, ?_, ?_, ?_, ?_, ?_⟩
      · intro u hu huc
        rcases mem_setStatus s.tasks tid Status.running u hu with ⟨t1, ht1, hcase⟩
        rcases hcase with ⟨hid1, heq⟩ | ⟨hid1, heq⟩
        · rw [heq] at huc
          simp at huc
        · subst heq
          exact hinv.completed_entry u ht1 huc
      · intro u hu huc
        rcases mem_setStatus s.tasks tid Status.running u hu with ⟨t1, ht1, hcase⟩
        rcases hcase with ⟨hid1, heq⟩ | ⟨hid1, heq⟩
        · rw [heq] at huc
          simp at huc
        · subst heq
          exact hinv.failed_coh u ht1 huc
      · intro u hu hustat
        rcases mem_setStatus s.tasks tid Status.running u hu with ⟨t1, ht1, hcase⟩
        rcases hcase with ⟨hid1, heq⟩ | ⟨hid1, heq⟩
        · rw [heq]
          exact hdeps_of_tid t1 ht1 hid1
        · subst heq
          exact hinv.started_deps u ht1 hustat
      · intro p hp2
        rcases List.mem_append.mp hp2 with hold | hnew
        · exact hinv.run_coh p hold
        · have hpe : p =
              (tid, (toolOutcome tools t.tool_name
                (resolve_dependencies s.results t)).1) :=
            List.mem_singleton.mp hnew
          refine ⟨g1, hg1G, ?_, hg1deps, ?_⟩
          · rw [hpe, hg1id, htid]
          · rw [hpe]
            show (toolOutcome tools t.tool_name
                (resolve_dependencies s.results t)).1 =
              (toolOutcome tools g1.tool_name
                (resolve_dependencies s.results g1)).1
            rw [hg1nm, resolve_eq_of_input s.results t g1 hg1in.symm]
      · intro tid2 htid2
        exact hinv.queue_coh tid2 (by rw [hq]; exact List.mem_cons_of_mem _ htid2)
      · intro u hu hur
        rcases mem_setStatus s.tasks tid Status.running u hu with ⟨t1, ht1, hcase⟩
        rcases hcase with ⟨hid1, heq⟩ | ⟨hid1, heq⟩
        · refine ⟨(tid, (toolOutcome tools t.tool_name
              (resolve_dependencies s.results t)).1),
            List.mem_append.mpr (Or.inr (List.mem_singleton.mpr rfl)), ?_⟩
          rw [heq]
          exact hid1.symm
        · subst heq
          rcases hinv.running_has_inv u ht1 hur with ⟨p, hpmem, hpid⟩
          exact ⟨p, List.mem_append.mpr (Or.inl hpmem), hpid⟩
      · intro hph u hu
        rcases mem_setStatus s.tasks tid Status.running u hu with ⟨t1, ht1, hcase⟩
        rcases hcase with ⟨hid1, heq⟩ | ⟨hid1, heq⟩
        · rw [heq]
          intro hc
          simp at hc
        · subst heq
          exact hinv.done_no_pending hph u ht1
  | finish l1 l2 tid out hr =>
      have hmemrun : (tid, out) ∈ s.running := by
        rw [hr]
        exact List.mem_append.mpr (Or.inr (List.mem_cons_self _ _))
      rcases hinv.run_coh (tid, out) hmemrun with ⟨g, hgG, hgid, hgdeps, hout⟩
      have hgid2 : g.task_id = tid := hgid
      have hout2 : out = (toolOutcome tools g.tool_name
          (resolve_dependencies s.results g)).1 := hout
      have hsame : ∀ r v, out = Outcome.ok r →
          lookupStore tid s.results = some v → v = r := by
        intro r v hor hv
        rcases toolOutcome_ok tools g.tool_name _ r (by rw [← hout2, hor]) with
          ⟨f, hf, hfr⟩
        rcases hinv.store_dom (tid, v) (lookupStore_mem _ _ _ hv) with
          ⟨t2, ht2G, ht2id, ht2deps, f2, hf2, hf2v⟩
        have ht2g : t2 = g := unique_by_id G hG.nodup t2 g ht2G hgG
          (by rw [show t2.task_id = tid from ht2id, hgid2])
        subst ht2g
        rw [hf] at hf2
        injection hf2 with hff
        rw [← hff] at hf2v
        have hvr := hf2v.symm.trans hfr
        injection hvr with hvr2
      have hext : storeExtends s.results (applyStore s.results tid out) := by
        intro k v hkv
        cases out with
        | failed msg => exact hkv
        | ok r =>
            show lookupStore k (insertStore tid r s.results) = some v
            by_cases hk : k = tid
            · subst hk
              have hvr := hsame r v rfl hkv
              rw [hvr, lookupStore_insertStore_self]
            · rw [lookupStore_insertStore_ne k tid r s.results
                (fun e => hk e.symm)]
              exact hkv
      have hstab : ∀ t3 ∈ G, depsEntriesPresent s.results t3 →
          resolve_dependencies s.results t3 =
            resolve_dependencies (applyStore s.results tid out) t3 :=
        fun t3 ht3 hd3 => resolve_stable _ _ t3 hext (hG.refsDecl t3 ht3) hd3
      have hstabU : ∀ u ∈ s.tasks, depsEntriesPresent s.results u →
          resolve_dependencies s.results u =
            resolve_dependencies (applyStore s.results tid out) u := by
        intro u hu hdu
        rcases skel_transfer G s.tasks hinv.skel_eq u hu with
          ⟨g2, hg2G, _, _, hg2in, hg2dep⟩
        apply resolve_stable _ _ u hext _ hdu
        intro m hm
        have hmem2 : String.mk m ∈ g2.dependencies :=
          hG.refsDecl g2 hg2G m (by rw [hg2in]; exact hm)
        rw [← hg2dep]
        exact hmem2
      have hdeps_of_tid2 : ∀ t1 ∈ s.tasks, t1.task_id = tid →
          depsEntriesPresent s.results t1 := by
        intro t1 ht1 hid1
        rcases skel_transfer G s.tasks hinv.skel_eq t1 ht1 with
          ⟨g2, hg2G, hg2id, _, _, hg2dep⟩
        have hg21 : g2 = g := unique_by_id G hG.nodup g2 g hg2G hgG
          (by rw [hg2id, hid1, hgid2])
        intro d hd
        apply hgdeps
        rw [← hg21, hg2dep]
        exact hd
      have hskel2 : sameSkeleton G (applyOutcome s.tasks tid out) := by
        unfold sameSkeleton
        rw [map_skel_applyOutcome]
        exact hinv.skel_eq
      refine ⟨hskel2, ?_, ?_, ?_, ?_, ?_, ?_, ?_, ?_⟩
      · intro p hp2
        cases out with
        | failed msg =>
            rcases hinv.store_dom p hp2 with ⟨t3, ht3G, ht3id, ht3deps, f3, hf3, hfv⟩
            refine ⟨t3, ht3G, ht3id,
              depsEntriesPresent_mono _ _ _ hext ht3deps, f3, hf3, ?_⟩
            rw [← hstab t3 ht3G ht3deps]
            exact hfv
        | ok r =>
            rcases mem_insertStore tid r s.results p hp2 with hpe | hpold
            · rcases toolOutcome_ok tools g.tool_name _ r (by rw [← hout2]) with
                ⟨f, hf, hfr⟩
              refine ⟨g, hgG, by rw [hpe]; exact hgid2,
                depsEntriesPresent_mono _ _ _ hext hgdeps, f, hf, ?_⟩
              rw [hpe, ← hstab g hgG hgdeps]
              exact hfr
            · rcases hinv.store_dom p hpold with
                ⟨t3, ht3G, ht3id, ht3deps, f3, hf3, hfv⟩
              refine ⟨t3, ht3G, ht3id,
                depsEntriesPresent_mono _ _ _ hext ht3deps, f3, hf3, ?_⟩
              rw [← hstab t3 ht3G ht3deps]
              exact hfv
      · intro u hu huc
        rcases mem_applyOutcome s.tasks tid out u hu with ⟨t1, ht1, hcase⟩
        rcases hcase with ⟨hid1, hsub⟩ | ⟨hid1, heq⟩
        · rcases hsub with ⟨r, hor, heq⟩ | ⟨msg, hor, heq⟩
          · rw [heq]
            show (lookupStore t1.task_id (applyStore s.results tid out)).isSome = true
            rw [hid1, hor]
            simp [applyStore, lookupStore_insertStore_self]
          · rw [heq] at huc
            simp at huc
        · subst heq
          exact isSome_of_extends _ _ _ hext (hinv.completed_entry u ht1 huc)
      · intro u hu huc
        rcases mem_applyOutcome s.tasks tid out u hu with ⟨t1, ht1, hcase⟩
        rcases hcase with ⟨hid1, hsub⟩ | ⟨hid1, heq⟩
        · rcases hsub with ⟨r, hor, heq⟩ | ⟨msg, hor, heq⟩
          · rw [heq] at huc
            simp at huc
          · rcases skel_transfer G s.tasks hinv.skel_eq t1 ht1 with
              ⟨g2, hg2G, hg2id, hg2nm, hg2in, hg2dep⟩
            have hg21 : g2 = g := unique_by_id G hG.nodup g2 g hg2G hgG
              (by rw [hg2id, hid1, hgid2])
            have hng : t1.tool_name = g.tool_name := by
              rw [← hg21]
              exact hg2nm.symm
            have hig : t1.tool_input = g.tool_input := by
              rw [← hg21]
              exact hg2in.symm
            have hunm : u.tool_name = t1.tool_name := by rw [heq]
            have huin : u.tool_input = t1.tool_input := by rw [heq]
            show tools u.tool_name = none ∨ ∃ f e, tools u.tool_name = some f ∧
              f (resolve_dependencies (applyStore s.results tid out) u) =
                Except.error e
            rcases toolOutcome_failed tools g.tool_name _ msg
              (by rw [← hout2, hor]) with hnone | ⟨f, e, hf, hfe⟩
            · left
              rw [hunm, hng]
              exact hnone
            · right
              refine ⟨f, e, by rw [hunm, hng]; exact hf, ?_⟩
              rw [resolve_eq_of_input _ u g (by rw [huin, hig])]
              rw [← hstab g hgG hgdeps]
              exact hfe
        · subst heq
          show tools u.tool_name = none ∨ ∃ f e, tools u.tool_name = some f ∧
            f (resolve_dependencies (applyStore s.results tid out) u) =
              Except.error e
          rcases hinv.failed_coh u ht1 huc with hnone | ⟨f, e, hf, hfe⟩
          · exact Or.inl hnone
          · refine Or.inr ⟨f, e, hf, ?_⟩
            rw [← hstabU u ht1 (hinv.started_deps u ht1 (by rw [huc]; simp))]
            exact hfe
      · intro u hu hustat
        rcases mem_applyOutcome s.tasks tid out u hu with ⟨t1, ht1, hcase⟩
        rcases hcase with ⟨hid1, hsub⟩ | ⟨hid1, heq⟩
        · have hd1 := hdeps_of_tid2 t1 ht1 hid1
          rcases hsub with ⟨r, hor, heq⟩ | ⟨msg, hor, heq⟩
          · rw [heq]
            exact depsEntriesPresent_mono _ _ _ hext hd1
          · rw [heq]
            exact depsEntriesPresent_mono _ _ _ hext hd1
        · subst heq
          exact depsEntriesPresent_mono _ _ _ hext
            (hinv.started_deps u ht1 hustat)
      · intro p hp2
        have hpold : p ∈ s.running := by
          rw [hr]
          rcases List.mem_append.mp hp2 with h2 | h2
          · exact List.mem_append.mpr (Or.inl h2)
          · exact List.mem_append.mpr (Or.inr (List.mem_cons_of_mem _ h2))
        rcases hinv.run_coh p hpold with ⟨t3, ht3G, ht3id, ht3deps, hpout⟩
        refine ⟨t3, ht3G, ht3id,
          depsEntriesPresent_mono _ _ _ hext ht3deps, ?_⟩
        rw [hpout, hstab t3 ht3G ht3deps]
      · intro tid2 htid2
        rcases hinv.queue_coh tid2 htid2 with ⟨t3, ht3G, ht3id, ht3deps⟩
        exact ⟨t3, ht3G, ht3id, depsEntriesPresent_mono _ _ _ hext ht3deps⟩
      · intro u hu hur
        rcases mem_applyOutcome s.tasks tid out u hu with ⟨t1, ht1, hcase⟩
        rcases hcase with ⟨hid1, hsub⟩ | ⟨hid1, heq⟩
        · rcases hsub with ⟨r, hor, heq⟩ | ⟨msg, hor, heq⟩
          · rw [heq] at hur
            simp at hur
          · rw [heq] at hur
            simp at hur
        · subst heq
          rcases hinv.running_has_inv u ht1 hur with ⟨p, hpmem, hpid⟩
          rw [hr] at hpmem
          rcases List.mem_append.mp hpmem with h2 | h2
          · exact ⟨p, List.mem_append.mpr (Or.inl h2), hpid⟩
          · rcases List.mem_cons.mp h2 with he2 | h3
            · exfalso
              apply hid1
              rw [← hpid, he2]
            · exact ⟨p, List.mem_append.mpr (Or.inr h3), hpid⟩
      · intro hph u hu
        rcases mem_applyOutcome s.tasks tid out u hu with ⟨t1, ht1, hcase⟩
        rcases hcase with ⟨hid1, hsub⟩ | ⟨hid1, heq⟩
        · rcases hsub with ⟨r, hor, heq⟩ | ⟨msg, hor, heq⟩
          · rw [heq]
            intro hc
            simp at hc
          · rw [heq]
            intro hc
            simp at hc
        · subst heq
          exact hinv.done_no_pending hph u ht1
  | reap_one f1 f2 tid hp hf =>
      refine ⟨hinv.skel_eq, hinv.store_dom, hinv.completed_entry, hinv.failed_coh,
        hinv.started_deps, hinv.run_coh, hinv.queue_coh, hinv.running_has_inv, ?_⟩
      intro hph
      cases hph
  | reap_drain f1 f2 tid hp hf =>
      refine ⟨hinv.skel_eq, hinv.store_dom, hinv.completed_entry, hinv.failed_coh,
        hinv.started_deps, hinv.run_coh, hinv.queue_coh, hinv.running_has_inv, ?_⟩
      intro hph
      split_ifs at hph

theorem inv_reaches (G : List Task) (tools : Tools) (W : Nat) (hG : GoodGraph G)
    (s : ExecState) (h : reaches tools W (initState G) s) :
    ExecInv G tools s := by
  induction h with
  | refl => exact inv_init G tools hG
  | tail h1 h2 ih => exact inv_step G tools W hG _ _ ih h2

/-- At a terminal state every task is completed or failed. -/
theorem terminal_status (G : List Task) (tools : Tools) (s : ExecState)
    (hinv : ExecInv G tools s) (ht : Terminal s) (u : Task) (hu : u ∈ s.tasks) :
    u.status = Status.completed ∨ u.status = Status.failed := by
  cases hst : u.status with
  | pending => exact absurd hst (hinv.done_no_pending ht.1 u hu)
  | running =>
      rcases hinv.running_has_inv u hu hst with ⟨p, hp, _⟩
      rw [ht.2.2] at hp
      cases hp
  | completed => exact Or.inl rfl
  | failed => exact Or.inr rfl

/-- C8, amended: for a well-formed graph — unique ids, pending tasks,
declared dependencies present, every reference declared, dependencies
acyclic (witnessed by a rank) — and a fixed registry of deterministic
handlers, any two complete runs of execute_dag end with the same result
store contents, whatever the interleaving and worker counts. -/
theorem c8_amended (G : List Task) (tools : Tools) (rank : String → Nat)
    (W1 W2 : Nat) (s1 s2 : ExecState) (hG : GoodGraph G)
    (hrank : ∀ t ∈ G, ∀ d ∈ t.dependencies, rank d < rank t.task_id)
    (h1 : reaches tools W1 (initState G) s1) (ht1 : Terminal s1)
    (h2 : reaches tools W2 (initState G) s2) (ht2 : Terminal s2) :
    ∀ id, lookupStore id s1.results = lookupStore id s2.results := by
  have inv1 := inv_reaches G tools W1 hG s1 h1
  have inv2 := inv_reaches G tools W2 hG s2 h2
  suffices key : ∀ n id, rank id < n →
      lookupStore id s1.results = lookupStore id s2.results by
    intro id
    exact key (rank id + 1) id (Nat.lt_succ_self _)
  intro n
  induction n with
  | zero => intro id h; exact absurd h (Nat.not_lt_zero _)
  | succ n ih =>
      intro id hid
      by_cases hg : ∃ g ∈ G, g.task_id = id
      · rcases hg with ⟨g, hgG, hgid⟩
        have hres : resolve_dependencies s1.results g =
            resolve_dependencies s2.results g := by
          apply resolve_congr
          intro m hm
          have hdep : String.mk m ∈ g.dependencies := hG.refsDecl g hgG m hm
          have hrk : rank (String.mk m) < rank id := by
            rw [← hgid]
            exact hrank g hgG _ hdep
          exact ih (String.mk m) (lt_of_lt_of_le hrk (Nat.lt_succ_iff.mp hid))
        have hside : ∀ sx : ExecState, ExecInv G tools sx → Terminal sx →
            (lookupStore id sx.results = none ∧
              (tools g.tool_name = none ∨ ∃ f e, tools g.tool_name = some f ∧
                f (resolve_dependencies sx.results g) = Except.error e)) ∨
            (∃ v f, lookupStore id sx.results = some v ∧
              tools g.tool_name = some f ∧
              f (resolve_dependencies sx.results g) = Except.ok v) := by
          intro sx hinvx htx
          rcases skel_transfer_rev G sx.tasks hinvx.skel_eq g hgG with
            ⟨u, hu, huid, hunm, huin, _⟩
          have huid2 : u.task_id = id := by rw [huid, hgid]
          rcases terminal_status G tools sx hinvx htx u hu with hc | hfl
          · have hsome := hinvx.completed_entry u hu hc
            rw [huid2] at hsome
            rcases Option.isSome_iff_exists.mp hsome with ⟨v, hv⟩
            rcases hinvx.store_dom (id, v) (lookupStore_mem _ _ _ hv) with
              ⟨t3, ht3G, ht3id, _, f3, hf3, hfv⟩
            have ht3g : t3 = g := unique_by_id G hG.nodup t3 g ht3G hgG
              (by rw [show t3.task_id = id from ht3id, hgid])
            rw [ht3g] at hf3 hfv
            exact Or.inr ⟨v, f3, hv, hf3, hfv⟩
          · rcases hinvx.failed_coh u hu hfl with hnone | ⟨f, e, hf, hfe⟩
            · refine Or.inl ⟨?_, Or.inl (by rw [← hunm]; exact hnone)⟩
              cases hl : lookupStore id sx.results with
              | none => rfl
              | some v =>
                  rcases hinvx.store_dom (id, v) (lookupStore_mem _ _ _ hl) with
                    ⟨t3, ht3G, ht3id, _, f3, hf3, _⟩
                  have ht3g : t3 = g := unique_by_id G hG.nodup t3 g ht3G hgG
                    (by rw [show t3.task_id = id from ht3id, hgid])
                  rw [ht3g] at hf3
                  rw [← hunm, hnone] at hf3
                  cases hf3
            · refine Or.inl ⟨?_, Or.inr ⟨f, e, by rw [← hunm]; exact hf, ?_⟩⟩
              · cases hl : lookupStore id sx.results with
                | none => rfl
                | some v =>
                    rcases hinvx.store_dom (id, v) (lookupStore_mem _ _ _ hl) with
                      ⟨t3, ht3G, ht3id, _, f3, hf3, hfv⟩
                    have ht3g : t3 = g := unique_by_id G hG.nodup t3 g ht3G hgG
                      (by rw [show t3.task_id = id from ht3id, hgid])
                    rw [ht3g] at hf3 hfv
                    rw [← hunm] at hf3
                    rw [hf] at hf3
                    injection hf3 with hff
                    rw [← hff] at hfv
                    rw [← resolve_eq_of_input sx.results u g huin] at hfv
                    rw [hfe] at hfv
                    cases hfv
              · rw [← resolve_eq_of_input sx.results u g huin]
                exact hfe
        rcases hside s1 inv1 ht1 with ⟨hn1, hdi1⟩ | ⟨v1, f1, hv1, hf1, hok1⟩
        · rcases hside s2 inv2 ht2 with ⟨hn2, _⟩ | ⟨v2, f2, hv2, hf2, hok2⟩
          · rw [hn1, hn2]
          · rcases hdi1 with hnone | ⟨f, e, hf, hfe⟩
            · rw [hnone] at hf2
              cases hf2
            · rw [hf] at hf2
              injection hf2 with hff
              rw [← hff] at hok2
              rw [← hres] at hok2
              rw [hfe] at hok2
              cases hok2
        · rcases hside s2 inv2 ht2 with ⟨hn2, hdi2⟩ | ⟨v2, f2, hv2, hf2, hok2⟩
          · rcases hdi2 with hnone | ⟨f, e, hf, hfe⟩
            · rw [hnone] at hf1
              cases hf1
            · rw [hf] at hf1
              injection hf1 with hff
              rw [← hff] at hok1
              rw [hres] at hok1
              rw [hfe] at hok1
              cases hok1
          · rw [hf1] at hf2
            injection hf2 with hff
            rw [← hff] at hok2
            rw [← hres] at hok2
            have hvv := hok1.symm.trans hok2
            injection hvv with hvv2
            rw [hv1, hv2, hvv2]
      · have hnone : ∀ sx : ExecState, ExecInv G tools sx →
            lookupStore id sx.results = none := by
          intro sx hinvx
          cases hl : lookupStore id sx.results with
          | none => rfl
          | some v =>
              rcases hinvx.store_dom (id, v) (lookupStore_mem _ _ _ hl) with
                ⟨t3, ht3G, ht3id, _⟩
              exact absurd ⟨t3, ht3G, ht3id⟩ hg
        rw [hnone s1 inv1, hnone s2 inv2]

/-- C8, witness for the amended claim: a complete one-task run compared
with itself through the determinism theorem. -/
theorem c8_amended_witness :
    ∃ sfin : ExecState, reaches echoTools 1 soloInit sfin ∧ Terminal sfin ∧
      ∀ id, lookupStore id sfin.results = lookupStore id sfin.results := by
  have h0 : reaches echoTools 1 soloInit soloInit := Relation.ReflTransGen.refl
  have h1 := h0.tail (Step.eval_submit soloInit rfl (by decide))
  have h2 := h1.tail (Step.start _ "s1" [] soloTask (by decide) (by decide) (by decide))
  have h3 := h2.tail (Step.finish _ [] [] "s1" (Outcome.ok "in") (by decide))
  have h4 := h3.tail (Step.reap_one _ [] [] "s1" (by decide) (by decide))
  have h5 := h4.tail (Step.eval_done _ (by decide) (by decide) (by decide))
  have hGG : GoodGraph [soloTask] := by
    refine ⟨by decide, by decide, ?_, by decide⟩
    intro t ht d hd
    have ht2 : t = soloTask := by simpa using ht
    subst ht2
    simp [soloTask] at hd
  have hrk : ∀ t ∈ [soloTask], ∀ d ∈ t.dependencies,
      (fun _ => 0 : String → Nat) d < (fun _ => 0 : String → Nat) t.task_id := by
    intro t ht d hd
    have ht2 : t = soloTask := by simpa using ht
    subst ht2
    simp [soloTask] at hd
  exact ⟨_, h5, ⟨by decide, by decide, by decide⟩,
    c8_amended [soloTask] echoTools (fun _ => 0) 1 1 _ _ hGG hrk
      h5 ⟨by decide, by decide, by decide⟩ h5 ⟨by decide, by decide, by decide⟩⟩

end MiniAgent
